import Mathlib

/-!
Verification development for the pomeranian task scheduler.

The development shallowly embeds the core of the repository:
- the pomodoro cadence state machine (src/pomodoro.rs),
- the task / schedule data model and the allocator (src/scheduler.rs),
- the randomized constraint-preserving perturbation (Schedule::shuffle),
- the optimization driver (Db::shuffle_maximizing, src/db.rs).

Modelling conventions:
- DateTime<Utc> is modelled as Int (Unix seconds); Duration as Nat (nanoseconds),
  with as_secs being division by 10^9, matching Rust Duration semantics.
- HashMap<String, _> is modelled as an association list; iteration order is the
  list order (Rust hash order is arbitrary, so theorems quantify over all orders).
- BTreeMap<DateTime, Option<String>> is modelled as a list of (time, content)
  pairs; BTreeMap iteration order corresponds to a time-sorted list, and the
  invariant theorems hold for every list order.
- AtomicI64 counters (single-threaded in the source) are modelled as a plain
  function from ids to Int, updated pointwise.
- the rand-driven choices in shuffle are modelled by an explicit pick function,
  so theorems quantify over every possible random outcome.
- f64 scores are modelled order-theoretically as Option Rat, where none stands
  for a not-a-number value: comparisons involving none are false, exactly the
  behavior of the f64 partial order used by shuffle_maximizing.
- Rust panics (unchecked indexing in shuffle) are modelled by Option results;
  none means the call panics.
-/

/-! ## Pomodoro cadence state machine (src/pomodoro.rs) -/

/-- The pomodoro state machine: Work n, Break n, LongBreak. LongBreak is the
default initial state. The payload counts remaining short cycles (u32 in Rust,
modelled as Nat; all claims restrict to break_interval at least 1, where Nat
and u32 arithmetic agree). -/
inductive Pomodoro where
  | Work (n : Nat)
  | Break (n : Nat)
  | LongBreak
deriving DecidableEq, Repr

namespace Pomodoro

/-- Forward transition, Pomodoro::tick. -/
def tick (breakInterval : Nat) : Pomodoro → Pomodoro
  | Work 0 => LongBreak
  | Work (n + 1) => Break n
  | Break n => Work n
  | LongBreak => Work (breakInterval - 1)

/-- Backward transition, Pomodoro::untick. -/
def untick (breakInterval : Nat) : Pomodoro → Pomodoro
  | LongBreak => Work 0
  | Break n => Work (n + 1)
  | Work n => if breakInterval - 1 ≤ n then LongBreak else Break n

/-- States reachable from LongBreak by n ticks. -/
def reach (breakInterval n : Nat) : Pomodoro :=
  (tick breakInterval)^[n] LongBreak

/-- Invariant satisfied by every state reachable from LongBreak. -/
def Bounded (bi : Nat) : Pomodoro → Prop
  | Work n => n + 1 ≤ bi
  | Break n => n + 2 ≤ bi
  | LongBreak => True

theorem bounded_tick {bi : Nat} (hbi : 1 ≤ bi) {s : Pomodoro} (h : Bounded bi s) :
    Bounded bi (tick bi s) := by
  cases s with
  | Work n =>
    cases n with
    | zero => simp [tick, Bounded]
    | succ m => simp only [tick, Bounded] at h ⊢; omega
  | Break n => simp only [tick, Bounded] at h ⊢; omega
  | LongBreak => simp only [tick, Bounded]; omega

theorem bounded_reach {bi : Nat} (hbi : 1 ≤ bi) (n : Nat) : Bounded bi (reach bi n) := by
  induction n with
  | zero => simp [reach, Bounded]
  | succ m ih =>
    have : reach bi (m + 1) = tick bi (reach bi m) := by
      simp [reach, Function.iterate_succ_apply']
    rw [this]
    exact bounded_tick hbi ih

theorem untick_tick_of_bounded {bi : Nat} (hbi : 1 ≤ bi) {s : Pomodoro}
    (h : Bounded bi s) : untick bi (tick bi s) = s := by
  cases s with
  | Work n =>
    cases n with
    | zero => simp [tick, untick]
    | succ m =>
      simp [tick, untick]
  | Break n =>
    simp only [Bounded] at h
    simp only [tick, untick]
    have : ¬ (bi - 1 ≤ n) := by omega
    simp [this]
  | LongBreak =>
    simp only [tick, untick]
    have : bi - 1 ≤ bi - 1 := le_refl _
    simp [this]

end Pomodoro

/-- C4: for every break_interval at least 1 and every cadence state reachable
from LongBreak by finitely many ticks, untick after tick is the identity. -/
theorem c4_untick_tick_roundtrip (bi n : Nat) (hbi : 1 ≤ bi) :
    Pomodoro.untick bi (Pomodoro.tick bi (Pomodoro.reach bi n)) = Pomodoro.reach bi n :=
  Pomodoro.untick_tick_of_bounded hbi (Pomodoro.bounded_reach hbi n)

/-- Witness for C4: break_interval 4, the state after 3 ticks (Break 2). -/
theorem c4_untick_tick_roundtrip_witness :
    1 ≤ 4 ∧
      Pomodoro.untick 4 (Pomodoro.tick 4 (Pomodoro.reach 4 3)) = Pomodoro.reach 4 3 :=
  ⟨by decide, c4_untick_tick_roundtrip 4 3 (by decide)⟩

/-! ## Durations and the task model (src/scheduler.rs, src/db.rs) -/

/-- Rust u64 div_ceil, as used by Task::divided_into: quotient plus one when the
remainder is nonzero. (Rust panics when the divisor is zero; every claim below
restricts to a nonzero divisor.) -/
def divCeilU64 (a b : Nat) : Nat :=
  a / b + (if a % b = 0 then 0 else 1)

/-- Duration::as_secs on a duration held as nanoseconds: the whole-second part. -/
def asSecs (d : Nat) : Nat := d / 1000000000

namespace Sched

/-- A task as seen through the Task trait of src/scheduler.rs: a totally ordered
priority, a half-open working period, and the estimated length returned by the
estimated_length trait method (nanoseconds). The name Task is taken by the Lean
core library, hence the Sched namespace. -/
structure Task where
  priority : Int
  wpStart : Int
  wpEnd : Int
  estimatedLength : Nat
deriving DecidableEq, Repr

/-- Task::divided_into: estimated_length().as_secs().div_ceil(duration.as_secs()). -/
def Task.dividedInto (t : Task) (slice : Nat) : Nat :=
  divCeilU64 (asSecs t.estimatedLength) (asSecs slice)

/-- CTask of src/db.rs: the concrete task type with constant fields (name and
remote id omitted: they play no role in any claim). Priority is u32. -/
structure CTask where
  priority : Nat
  wpStart : Int
  wpEnd : Int
  estimatedLength : Nat
  workedLength : Nat
deriving DecidableEq, Repr

/-- The Task trait implementation for CTask: estimated_length() returns
estimated_length - worked_length (Rust Duration subtraction; the claims
restrict to worked_length at most estimated_length, where Nat truncation and
Rust agree). -/
def CTask.toTask (c : CTask) : Task :=
  { priority := (c.priority : Int)
    wpStart := c.wpStart
    wpEnd := c.wpEnd
    estimatedLength := c.estimatedLength - c.workedLength }

/-- Modelled from the spec: the exact ceiling of remaining_length / slice_length
over full-precision (nanosecond) durations, the quantity the spec says
divided_into computes. -/
def specCeilDiv (a b : Nat) : Nat :=
  a / b + (if a % b = 0 then 0 else 1)

/-- C9 counterexample input: a task with remaining length 1.5 seconds. -/
def c9Task : CTask :=
  { priority := 0, wpStart := 0, wpEnd := 10
    estimatedLength := 1500000000, workedLength := 0 }

/-- C9 fails as stated: with remaining length 1.5 s and slice length 1 s (a
strictly positive slice), divided_into yields 1 slot while the ceiling of
remaining / slice is 2: as_secs truncates the half second before dividing. -/
theorem c9_dividedInto_counterexample :
    c9Task.toTask.dividedInto 1000000000 = 1 ∧
      specCeilDiv (c9Task.estimatedLength - c9Task.workedLength) 1000000000 = 2 ∧
      c9Task.toTask.dividedInto 1000000000 ≠
        specCeilDiv (c9Task.estimatedLength - c9Task.workedLength) 1000000000 := by
  decide

/-- C9 amended: when worked_length is at most estimated_length and both the
remaining length and the slice length are whole numbers of seconds with the
slice at least one second, divided_into equals the exact ceiling of
remaining / slice. (With fractional seconds it can differ, since as_secs
discards the sub-second part before dividing.) -/
theorem c9_dividedInto_amended (c : CTask) (slice : Nat)
    (hw : c.workedLength ≤ c.estimatedLength)
    (hre : (1000000000 : Nat) ∣ (c.estimatedLength - c.workedLength))
    (hsl : (1000000000 : Nat) ∣ slice)
    (hpos : 0 < asSecs slice) :
    c.toTask.dividedInto slice =
      specCeilDiv (c.estimatedLength - c.workedLength) slice := by
  obtain ⟨a, ha⟩ := hre
  obtain ⟨b, hb⟩ := hsl
  have hK : (0 : Nat) < 1000000000 := by norm_num
  have hbpos : 0 < b := by
    have : asSecs slice = b := by
      rw [hb, asSecs, Nat.mul_div_cancel_left _ hK]
    omega
  have hsecsS : asSecs slice = b := by
    rw [hb, asSecs, Nat.mul_div_cancel_left _ hK]
  have hsecsR : asSecs (c.estimatedLength - c.workedLength) = a := by
    rw [ha, asSecs, Nat.mul_div_cancel_left _ hK]
  have hdi : c.toTask.dividedInto slice = divCeilU64 a b := by
    unfold Task.dividedInto CTask.toTask
    simp only [hsecsR, hsecsS]
  rw [hdi, ha, hb]
  unfold divCeilU64 specCeilDiv
  have hmod : (1000000000 * a) % (1000000000 * b) = 1000000000 * (a % b) := by
    rw [Nat.mul_mod_mul_left]
  have hdiv : (1000000000 * a) / (1000000000 * b) = a / b := by
    rw [Nat.mul_div_mul_left _ _ hK]
  rw [hmod, hdiv]
  have hiff : (1000000000 * (a % b) = 0) ↔ (a % b = 0) := by
    constructor
    · intro h; omega
    · intro h; omega
  by_cases hr : a % b = 0
  · simp [hr]
  · have : ¬ (1000000000 * (a % b) = 0) := by omega
    simp [hr, this]

/-- Witness for C9 amended: remaining 3 s, slice 2 s gives ceil(3/2) = 2 slots. -/
theorem c9_dividedInto_amended_witness :
    ({ priority := 0, wpStart := 0, wpEnd := 10, estimatedLength := 4000000000,
       workedLength := 1000000000 : CTask }).toTask.dividedInto 2000000000 =
      specCeilDiv 3000000000 2000000000 := by
  have h := c9_dividedInto_amended
    { priority := 0, wpStart := 0, wpEnd := 10, estimatedLength := 4000000000,
      workedLength := 1000000000 } 2000000000
    (by norm_num) (by norm_num) (by norm_num) (by decide)
  simpa using h

/-! ## The schedule aggregate and the allocator (src/scheduler.rs) -/

/-- An association list standing for HashMap<String, Arc<T>>; the list order
stands for the (arbitrary but fixed) hash iteration order. -/
abbrev TaskL := List (String × Task)

/-- The slot map BTreeMap<DateTime<Utc>, Option<String>> as a list of
(time, content) pairs in map iteration order. -/
abbrev SlotL := List (Int × Option String)

/-- The wants_change counters of Schedule::schedule, an AtomicI64 per task id,
as a total function (ids outside the table are never consulted). -/
abbrev Wc := String → Int

/-- Schedule of src/scheduler.rs: task table, slot map, timeslice length. -/
structure Schedule where
  tasks : TaskL
  slots : SlotL
  timesliceLength : Nat
deriving DecidableEq, Repr

/-- HashMap lookup (first matching key). -/
def lookupTask : TaskL → String → Option Task
  | [], _ => none
  | (k, t) :: rest, id => if k = id then some t else lookupTask rest id

/-- HashMap key membership, as used by tasks.get_mut in the reclaim pass. -/
def containsKey (tl : TaskL) (id : String) : Bool :=
  (lookupTask tl id).isSome

/-- Number of slots currently holding the given id, as computed by
slots.values().filter(v == Some(id)).count(). -/
def countSlots (slots : SlotL) (id : String) : Nat :=
  (slots.filter (fun p => p.2 == some id)).length

/-- Schedule::unsatisfied_tasks: ids whose occupied-slot count is strictly
below divided_into(timeslice_length). -/
def unsatisfiedTasks (sch : Schedule) : List String :=
  (sch.tasks.filter
    (fun e => decide (countSlots sch.slots e.1 < e.2.dividedInto sch.timesliceLength))).map
    Prod.fst

/-- Pointwise update of the counter map. -/
def updWc (w : Wc) (k : String) (v : Int) : Wc :=
  fun k2 => if k2 = k then v else w k2

/-- The initial wants_change map of Schedule::schedule:
divided_into(timeslice) minus the current occupied count, per task. -/
def initWc (tl : TaskL) (slots : SlotL) (slice : Nat) : Wc :=
  fun id =>
    match lookupTask tl id with
    | some t => (t.dividedInto slice : Int) - (countSlots slots id : Int)
    | none => 0

/-- Phase A of Schedule::schedule (reclaim surplus): walk the slots in map
order; a slot whose occupant is missing from the table is emptied; a slot whose
occupant has negative wants_change is emptied and the counter incremented. -/
def phaseA (tl : TaskL) : SlotL → Wc → SlotL × Wc
  | [], w => ([], w)
  | (t, none) :: rest, w =>
    let r := phaseA tl rest w
    ((t, none) :: r.1, r.2)
  | (t, some id) :: rest, w =>
    if containsKey tl id then
      if 0 ≤ w id then
        let r := phaseA tl rest w
        ((t, some id) :: r.1, r.2)
      else
        let r := phaseA tl rest (updWc w id (w id + 1))
        ((t, none) :: r.1, r.2)
    else
      let r := phaseA tl rest w
      ((t, none) :: r.1, r.2)

/-- The inner loop of phase B for one task: claim empty slots inside the
working period, in map order, while the counter stays positive. -/
def claimSlots (id : String) (lo hi : Int) : SlotL → Int → SlotL × Int
  | [], n => ([], n)
  | (t, v) :: rest, n =>
    if 0 < n ∧ lo ≤ t ∧ t < hi ∧ v = none then
      let r := claimSlots id lo hi rest (n - 1)
      ((t, some id) :: r.1, r.2)
    else
      let r := claimSlots id lo hi rest n
      ((t, v) :: r.1, r.2)

/-- Length of a working period, the phase-B sort key. -/
def wpLen (t : Task) : Int := t.wpEnd - t.wpStart

/-- Tasks in ascending order of working-period length (itertools sorted_by_key
is a stable sort; insertionSort with a total less-or-equal key is stable). -/
def sortTasks (tl : TaskL) : TaskL :=
  List.insertionSort (fun a b => wpLen a.2 ≤ wpLen b.2) tl

/-- Phase B of Schedule::schedule (greedy seed), one task after another. -/
def phaseBGo : TaskL → SlotL → Wc → SlotL × Wc
  | [], slots, w => (slots, w)
  | (id, t) :: rest, slots, w =>
    let r := claimSlots id t.wpStart t.wpEnd slots (w id)
    phaseBGo rest r.1 (updWc w id r.2)

/-- Phase B of Schedule::schedule over the length-sorted task list. -/
def phaseB (tl : TaskL) (slots : SlotL) (w : Wc) : SlotL × Wc :=
  phaseBGo (sortTasks tl) slots w

/-- Stable sort of eviction candidates by ascending occupant priority. -/
def sortCands (l : List (Int × String × Int)) : List (Int × String × Int) :=
  List.insertionSort (fun a b => a.2.2 ≤ b.2.2) l

/-- The candidates vector of the hunger-games loop: occupied slots inside the
claimant's working period whose occupant has strictly lower priority, sorted by
ascending occupant priority (weakest first), keeping (slot time, occupant). -/
def candidates (tl : TaskL) (t : Task) (slots : SlotL) : List (Int × String) :=
  (sortCands
    (((slots.filter (fun p => decide (t.wpStart ≤ p.1 ∧ p.1 < t.wpEnd))).filterMap
        (fun p => p.2.bind
          (fun vid => (lookupTask tl vid).map (fun vt => (p.1, vid, vt.priority))))).filter
      (fun x => decide (x.2.2 < t.priority)))).map
    (fun x => (x.1, x.2.1))

/-- BTreeMap::insert on the slot map (the key is already present whenever the
allocator calls this). -/
def setSlot (slots : SlotL) (time : Int) (id : String) : SlotL :=
  slots.map (fun p => if p.1 = time then (p.1, some id) else p)

/-- The candidate loop of the hunger games for one claimant: each step bumps
the victim's counter and decrements the claimant's; when the claimant's counter
reaches zero the loop stops WITHOUT assigning the slot (this mirrors the source,
where continue fires before slots.insert); otherwise the slot is reassigned. -/
def evictLoop (id : String) : List (Int × String) → SlotL → Wc → SlotL × Wc
  | [], slots, w => (slots, w)
  | (s, vid) :: rest, slots, w =>
    let w1 := updWc w vid (w vid + 1)
    let nv := w1 id - 1
    let w2 := updWc w1 id nv
    if nv = 0 then (slots, w2)
    else evictLoop id rest (setSlot slots s id) w2

/-- One pass of the hunger-games loop over the (lazily filtered) task list;
the Bool accumulates progress (Rust: done = false fires whenever the candidate
loop runs at least once). -/
def onePassGo (tl : TaskL) : TaskL → SlotL → Wc → Bool → SlotL × Wc × Bool
  | [], slots, w, prog => (slots, w, prog)
  | (id, t) :: rest, slots, w, prog =>
    if 0 < w id then
      let cands := candidates tl t slots
      let r := evictLoop id cands slots w
      onePassGo tl rest r.1 r.2 (prog || !cands.isEmpty)
    else onePassGo tl rest slots w prog

/-- One full pass of the hunger games. -/
def onePass (tl : TaskL) (slots : SlotL) (w : Wc) : SlotL × Wc × Bool :=
  onePassGo tl tl slots w false

/-- The fixed-point eviction loop, with explicit fuel; the Bool result is true
exactly when the loop exited because a pass made no progress (the Rust loop has
no fuel; the termination theorem shows the fuel below is never exhausted). -/
def hungerGames (tl : TaskL) : Nat → SlotL → Wc → SlotL × Wc × Bool
  | 0, slots, w => (slots, w, false)
  | n + 1, slots, w =>
    let r := onePass tl slots w
    if r.2.2 then hungerGames tl n r.1 r.2.1 else (r.1, r.2.1, true)

/-- Number of table entries with strictly smaller priority; the weight of a
task in the termination measure. -/
def rank (tl : TaskL) (t : Task) : Nat :=
  tl.countP (fun e => decide (e.2.priority < t.priority))

/-- Termination measure of the hunger games: every eviction step moves one
unit of outstanding requirement from a higher-ranked claimant to a
lower-ranked victim, so this weighted sum strictly decreases. -/
def phi (tl : TaskL) (w : Wc) : Nat :=
  (tl.map (fun e => (w e.1).toNat * rank tl e.2)).sum

/-- Schedule::schedule, all three phases; returns final slots, final counters
and the loop-completion flag. -/
def scheduleRun (sch : Schedule) : SlotL × Wc × Bool :=
  let w0 := initWc sch.tasks sch.slots sch.timesliceLength
  let a := phaseA sch.tasks sch.slots w0
  let b := phaseB sch.tasks a.1 a.2
  hungerGames sch.tasks (phi sch.tasks b.2 + 1) b.1 b.2

/-- Schedule::schedule: the post-call schedule and the returned id set (the
ids whose final wants_change is nonzero, in table order). -/
def schedule (sch : Schedule) : Schedule × List String :=
  let r := scheduleRun sch
  ({ sch with slots := r.1 },
    (sch.tasks.filter (fun e => decide (r.2.1 e.1 ≠ 0))).map Prod.fst)

/-- True when the hunger-games loop of Schedule::schedule exited through its
zero-evictions test rather than by fuel exhaustion. -/
def scheduleTerminates (sch : Schedule) : Bool :=
  (scheduleRun sch).2.2

/-! ## C1: the returned set versus the post-call state -/

/-- C1 failing input: task a (priority 1, window 0..10) and task b (priority 2,
window 0..20), each needing one slot, with a single empty slot at time 0. -/
def c1Tasks : TaskL :=
  [("a", { priority := 1, wpStart := 0, wpEnd := 10, estimatedLength := 1000000000 }),
   ("b", { priority := 2, wpStart := 0, wpEnd := 20, estimatedLength := 1000000000 })]

/-- C1 failing input schedule: one empty slot, timeslice one second. -/
def c1Sched : Schedule :=
  { tasks := c1Tasks, slots := [(0, none)], timesliceLength := 1000000000 }

/-- C1 is violated by the code (a code bug): on c1Sched, phase B gives the slot
to a; the hunger games let b preempt a, but the final eviction step of the
candidate loop fires continue before slots.insert, so the counters record the
transfer while the slot map keeps a. The call returns the set containing
exactly a, yet a still occupies its full required count (1 slot) and b, absent
from the returned set, occupies 0 of its required 1 - and the code's own
unsatisfied_tasks() on the post-call state returns exactly b, contradicting
the returned set. -/
theorem c1_schedule_eval_bug :
    (schedule c1Sched).2 = ["a"] ∧
      (schedule c1Sched).1.slots = [(0, some "a")] ∧
      unsatisfiedTasks (schedule c1Sched).1 = ["b"] ∧
      countSlots (schedule c1Sched).1.slots "a" = 1 ∧
      (lookupTask c1Tasks "a").map (fun t => t.dividedInto 1000000000) = some 1 ∧
      countSlots (schedule c1Sched).1.slots "b" = 0 ∧
      (lookupTask c1Tasks "b").map (fun t => t.dividedInto 1000000000) = some 1 := by
  decide

/-! ## Schedule::shuffle (src/scheduler.rs) -/

/-- chrono DateTime MIN_UTC as Unix seconds, the lower bound of the total
range used for an empty slot's neighborhood. -/
def minUtcTs : Int := -8334601228800

/-- chrono DateTime MAX_UTC as Unix seconds. -/
def maxUtcTs : Int := 8210298412799

/-- The take_while stage of the shuffle neighborhood: slots after the current
index whose time lies inside the current occupant's working period, stopping at
the first one outside; each kept with its absolute index. -/
def pulled (lo hi : Int) : Nat → SlotL → List (Nat × Int × Option String)
  | _, [] => []
  | j, (t, v) :: rest =>
    if lo ≤ t ∧ t < hi then (j, t, v) :: pulled lo hi (j + 1) rest else []

/-- The filter stage of the shuffle neighborhood: every pulled neighbor's
occupant is looked up in the task table (none models the panic of the
unchecked self.tasks indexing on a stale id); empty neighbors always pass,
occupied ones pass when their occupant's working period contains the current
slot's time. Returns the indices of the accepting neighbors. -/
def resolveNeighbors (tl : TaskL) (lt : Int) :
    List (Nat × Int × Option String) → Option (List Nat)
  | [] => some []
  | (j, _, v) :: rest =>
    match v with
    | none => (resolveNeighbors tl lt rest).map (fun l => j :: l)
    | some id =>
      match lookupTask tl id with
      | none => none
      | some t =>
        if t.wpStart ≤ lt ∧ lt < t.wpEnd then
          (resolveNeighbors tl lt rest).map (fun l => j :: l)
        else resolveNeighbors tl lt rest

/-- One iteration of Schedule::shuffle at a slot index: build the candidate
list (the slot itself plus its accepting neighbors), pick one of them (pick is
reduced modulo the candidate count, so every rng outcome is covered), and swap
the two slots' contents unless the slot picked itself. none models a panic on
a stale occupant reference. -/
def occupantRange (tl : TaskL) : Option String → Option (Int × Int)
  | some id => (lookupTask tl id).map (fun t => (t.wpStart, t.wpEnd))
  | none => some (minUtcTs, maxUtcTs)

def shuffleSwap (slots : SlotL) (i : Nat) (lt : Int) (left : Option String)
    (j : Nat) : SlotL :=
  match slots.get? j with
  | none => slots
  | some (jt, right) => (slots.set i (lt, right)).set j (jt, left)

def shuffleStep (tl : TaskL) (slots : SlotL) (i : Nat) (pick : Nat) : Option SlotL :=
  match slots.get? i with
  | none => some slots
  | some (lt, left) =>
    match occupantRange tl left with
    | none => none
    | some (lo, hi) =>
      match resolveNeighbors tl lt (pulled lo hi (i + 1) (slots.drop (i + 1))) with
      | none => none
      | some ns =>
        if (i :: ns).length < 2 then some slots
        else if pick % (i :: ns).length = 0 then some slots
        else
          match (i :: ns).get? (pick % (i :: ns).length) with
          | none => some slots
          | some j => some (shuffleSwap slots i lt left j)

/-- The index loop of Schedule::shuffle. -/
def shuffleGo (tl : TaskL) (pick : Nat → Nat) : List Nat → SlotL → Option SlotL
  | [], slots => some slots
  | i :: rest, slots =>
    match shuffleStep tl slots i (pick i) with
    | none => none
    | some s2 => shuffleGo tl pick rest s2

/-- Schedule::shuffle on the slot map: one pass over all indices in map order;
none models a panic on a stale occupant reference. -/
def shuffleSlots (tl : TaskL) (pick : Nat → Nat) (slots : SlotL) : Option SlotL :=
  shuffleGo tl pick (List.range slots.length) slots

/-- Schedule::shuffle on a whole schedule. -/
def shuffleSchedule (pick : Nat → Nat) (sch : Schedule) : Option Schedule :=
  (shuffleSlots sch.tasks pick sch.slots).map (fun s => { sch with slots := s })

/-- Any number of consecutive shuffle calls, each with its own pick function. -/
def shuffleN (tl : TaskL) (picks : Nat → Nat → Nat) : Nat → SlotL → Option SlotL
  | 0, slots => some slots
  | n + 1, slots =>
    match shuffleSlots tl (picks n) slots with
    | none => none
    | some s2 => shuffleN tl picks n s2

/-! ## Db::shuffle_maximizing (src/db.rs) -/

/-- An f64 score, modelled order-theoretically: none is a not-a-number value,
incomparable to everything; some q is an ordinary value. All the driver does
with scores is compare them with the f64 partial order, which this captures. -/
abbrev Score := Option Rat

/-- The f64 comparison score > score_to_beat: false whenever either side is
not-a-number, otherwise the numeric strict order. -/
def fgt : Score → Score → Bool
  | some a, some b => decide (b < a)
  | _, _ => false

/-- The f64 comparison a < b, used to state that a result is never lower. -/
def flt (a b : Score) : Bool := fgt b a

/-- The commit step of Db::shuffle_maximizing: keep the clone and its score
exactly when the clone's score strictly exceeds the best seen so far. -/
def maxStep (goal : Schedule → Score) (committed : Schedule) (best : Score)
    (copy : Schedule) : Schedule × Score :=
  let s := goal copy
  if fgt s best then (copy, s) else (committed, best)

/-- The trial loop of Db::shuffle_maximizing; the wall-clock budget is
modelled by the iteration count (the Rust loop re-checks the clock between
trials, so every budget corresponds to some finite trial count). none models
a panic inside shuffle. -/
def shuffleMaxGo (goal : Schedule → Score) (picks : Nat → Nat → Nat) :
    Nat → Schedule → Score → Nat → Option (Schedule × Score × Nat)
  | 0, committed, best, count => some (committed, best, count)
  | n + 1, committed, best, count =>
    match shuffleSchedule (picks count) committed with
    | none => none
    | some copy =>
      let r := maxStep goal committed best copy
      shuffleMaxGo goal picks n r.1 r.2 (count + 1)

/-- Db::shuffle_maximizing: starts from the committed schedule's own score and
returns the committed schedule, best score and iteration count. -/
def shuffleMaximizing (goal : Schedule → Score) (picks : Nat → Nat → Nat)
    (iters : Nat) (sch : Schedule) : Option (Schedule × Score × Nat) :=
  shuffleMaxGo goal picks iters sch (goal sch) 0

theorem flt_self (s : Score) : flt s s = false := by
  cases s <;> simp [flt, fgt]

theorem fgt_trans_flt {s b t : Score} (h1 : fgt s b = true) (h2 : flt b t = false) :
    flt s t = false := by
  unfold flt at h2 ⊢
  cases s with
  | none => simp [fgt] at h1
  | some vs =>
    cases b with
    | none => simp [fgt] at h1
    | some vb =>
      cases t with
      | none => simp [fgt]
      | some vt =>
        simp only [fgt, decide_eq_true_eq, decide_eq_false_iff_not] at h1 h2 ⊢
        intro hc
        exact h2 (lt_trans h1 hc)

theorem shuffleMaxGo_monotone (goal : Schedule → Score) (picks : Nat → Nat → Nat)
    (t0 : Score) :
    ∀ n committed best count out, flt best t0 = false →
      shuffleMaxGo goal picks n committed best count = some out →
      flt out.2.1 t0 = false := by
  intro n
  induction n with
  | zero =>
    intro c b cnt out hb h
    simp only [shuffleMaxGo, Option.some.injEq] at h
    rw [← h]
    exact hb
  | succ m ih =>
    intro c b cnt out hb h
    simp only [shuffleMaxGo] at h
    cases hs : shuffleSchedule (picks cnt) c with
    | none => rw [hs] at h; exact absurd h (by simp)
    | some copy =>
      rw [hs] at h
      refine ih _ _ _ _ ?_ h
      unfold maxStep
      by_cases hg : fgt (goal copy) b = true
      · simp only [hg, if_true]
        exact fgt_trans_flt hg hb
      · simp only [Bool.not_eq_true] at hg
        simp only [hg, Bool.false_eq_true, if_false]
        exact hb

/-- C6: for every pure scoring function and any trial budget, whenever
shuffle_maximizing returns, the returned best score is never lower (under the
f64 partial order) than the score the function assigns to the committed
schedule as it was immediately before the call. -/
theorem c6_shuffle_maximizing_monotone (goal : Schedule → Score)
    (picks : Nat → Nat → Nat) (iters : Nat) (sch : Schedule)
    (out : Schedule × Score × Nat)
    (h : shuffleMaximizing goal picks iters sch = some out) :
    flt out.2.1 (goal sch) = false :=
  shuffleMaxGo_monotone goal picks (goal sch) iters sch (goal sch) 0 out
    (flt_self (goal sch)) h

/-- Witness for C6: a zero-trial run on the concrete c1Sched with the constant
scoring function some 0. -/
theorem c6_shuffle_maximizing_monotone_witness :
    shuffleMaximizing (fun _ => (some 0 : Score)) (fun _ _ => 0) 0 c1Sched =
        some (c1Sched, some 0, 0) ∧
      flt (c1Sched, (some 0 : Score), 0).2.1 ((fun _ => (some 0 : Score)) c1Sched) =
        false :=
  ⟨rfl, c6_shuffle_maximizing_monotone (fun _ => some 0) (fun _ _ => 0) 0 c1Sched
    (c1Sched, some 0, 0) rfl⟩

/-- C7: the commit step of shuffle_maximizing replaces the committed schedule
and best score only when the trial's score strictly exceeds the best score so
far: if the f64 comparison fails the state is unchanged, in particular a trial
scored not-a-number never replaces anything, and any change implies the strict
comparison succeeded. -/
theorem c7_maxStep_strict_improvement :
    (∀ (goal : Schedule → Score) (committed : Schedule) (best : Score)
        (copy : Schedule), fgt (goal copy) best = false →
          maxStep goal committed best copy = (committed, best)) ∧
      (∀ (goal : Schedule → Score) (committed : Schedule) (best : Score)
          (copy : Schedule), goal copy = none →
            maxStep goal committed best copy = (committed, best)) ∧
      (∀ (goal : Schedule → Score) (committed : Schedule) (best : Score)
          (copy : Schedule), maxStep goal committed best copy ≠ (committed, best) →
            fgt (goal copy) best = true) := by
  refine ⟨?_, ?_, ?_⟩
  · intro goal committed best copy h
    unfold maxStep
    simp [h]
  · intro goal committed best copy h
    unfold maxStep
    rw [h]
    cases best <;> simp [fgt]
  · intro goal committed best copy h
    by_cases hg : fgt (goal copy) best = true
    · exact hg
    · exfalso
      apply h
      unfold maxStep
      simp only [Bool.not_eq_true] at hg
      simp [hg]

/-- Witness for C7: a not-a-number trial against best score some 0 leaves the
committed state untouched. -/
theorem c7_maxStep_strict_improvement_witness :
    fgt ((fun _ => (none : Score)) c1Sched) (some 0) = false ∧
      maxStep (fun _ => (none : Score)) c1Sched (some 0) c1Sched =
        (c1Sched, some 0) :=
  ⟨rfl, c7_maxStep_strict_improvement.1 (fun _ => none) c1Sched (some 0) c1Sched rfl⟩

/-! ## Basic lemmas about the table and counter maps -/

theorem lookupTask_mem {tl : TaskL} {id : String} {t : Task}
    (h : lookupTask tl id = some t) : (id, t) ∈ tl := by
  induction tl with
  | nil => simp [lookupTask] at h
  | cons e rest ih =>
    obtain ⟨k, t2⟩ := e
    simp only [lookupTask] at h
    by_cases hk : k = id
    · rw [if_pos hk] at h
      cases h
      subst hk
      exact List.mem_cons_self _ _
    · rw [if_neg hk] at h
      exact List.mem_cons_of_mem _ (ih h)

theorem lookupTask_eq_of_mem {tl : TaskL} (hnd : (tl.map Prod.fst).Nodup)
    {id : String} {t : Task} (h : (id, t) ∈ tl) : lookupTask tl id = some t := by
  induction tl with
  | nil => simp at h
  | cons e rest ih =>
    obtain ⟨k, t2⟩ := e
    simp only [List.map_cons, List.nodup_cons] at hnd
    rcases List.mem_cons.mp h with heq | hmem
    · cases heq
      simp [lookupTask]
    · have hk : k ≠ id := by
        intro hkid
        apply hnd.1
        rw [hkid]
        exact List.mem_map.mpr ⟨(id, t), hmem, rfl⟩
      simp only [lookupTask, if_neg hk]
      exact ih hnd.2 hmem

theorem containsKey_of_mem {tl : TaskL} {id : String} {t : Task}
    (h : (id, t) ∈ tl) : containsKey tl id = true := by
  induction tl with
  | nil => simp at h
  | cons e rest ih =>
    obtain ⟨k, t2⟩ := e
    rcases List.mem_cons.mp h with heq | hmem
    · cases heq
      simp [containsKey, lookupTask]
    · by_cases hk : k = id
      · simp [containsKey, lookupTask, hk]
      · simp only [containsKey, lookupTask, if_neg hk]
        exact ih hmem

theorem containsKey_lookup {tl : TaskL} {id : String}
    (h : containsKey tl id = true) : ∃ t, lookupTask tl id = some t := by
  unfold containsKey at h
  cases hl : lookupTask tl id with
  | none => rw [hl] at h; simp at h
  | some t => exact ⟨t, rfl⟩

theorem mem_sortTasks {tl : TaskL} {e : String × Task} (h : e ∈ sortTasks tl) :
    e ∈ tl := by
  unfold sortTasks at h
  exact (List.perm_insertionSort (fun a b => wpLen a.2 ≤ wpLen b.2) tl).mem_iff.mp h

theorem updWc_self (w : Wc) (k : String) (v : Int) : updWc w k v k = v := by
  simp [updWc]

theorem updWc_ne (w : Wc) (k : String) (v : Int) {k2 : String} (h : k2 ≠ k) :
    updWc w k v k2 = w k2 := by
  simp [updWc, h]

/-! ## The no-stale-reference invariant (claim C8) -/

/-- Every occupied slot's id is present in the task table. -/
def OccPresent (tl : TaskL) (slots : SlotL) : Prop :=
  ∀ p ∈ slots, ∀ id : String, p.2 = some id → containsKey tl id = true

theorem occPresent_nil (tl : TaskL) : OccPresent tl [] := by
  intro p hp
  simp at hp

theorem occPresent_cons {tl : TaskL} {x : Int × Option String} {l : SlotL}
    (hx : ∀ id : String, x.2 = some id → containsKey tl id = true)
    (hl : OccPresent tl l) : OccPresent tl (x :: l) := by
  intro p hp id hid
  rcases List.mem_cons.mp hp with heq | hmem
  · subst heq; exact hx id hid
  · exact hl p hmem id hid

theorem occPresent_of_cons {tl : TaskL} {x : Int × Option String} {l : SlotL}
    (h : OccPresent tl (x :: l)) : OccPresent tl l :=
  fun p hp => h p (List.mem_cons_of_mem _ hp)

theorem phaseA_occPresent (tl : TaskL) :
    ∀ (slots : SlotL) (w : Wc), OccPresent tl (phaseA tl slots w).1 := by
  intro slots
  induction slots with
  | nil => intro w; simp only [phaseA]; exact occPresent_nil tl
  | cons x rest ih =>
    intro w
    obtain ⟨t, v⟩ := x
    cases v with
    | none =>
      simp only [phaseA]
      exact occPresent_cons (by intro id h; simp at h) (ih w)
    | some id =>
      simp only [phaseA]
      by_cases hc : containsKey tl id
      · rw [if_pos hc]
        by_cases hw : 0 ≤ w id
        · rw [if_pos hw]
          refine occPresent_cons ?_ (ih w)
          intro id2 h
          cases h
          exact hc
        · rw [if_neg hw]
          exact occPresent_cons (by intro id2 h; simp at h) (ih _)
      · rw [if_neg hc]
        exact occPresent_cons (by intro id2 h; simp at h) (ih w)

theorem claimSlots_occPresent {tl : TaskL} {id : String} (lo hi : Int)
    (hid : containsKey tl id = true) :
    ∀ (slots : SlotL) (n : Int), OccPresent tl slots →
      OccPresent tl (claimSlots id lo hi slots n).1 := by
  intro slots
  induction slots with
  | nil => intro n h; simp only [claimSlots]; exact occPresent_nil tl
  | cons x rest ih =>
    intro n h
    obtain ⟨t, v⟩ := x
    simp only [claimSlots]
    split
    · refine occPresent_cons ?_ (ih _ (occPresent_of_cons h))
      intro id2 hi2
      cases hi2
      exact hid
    · refine occPresent_cons ?_ (ih _ (occPresent_of_cons h))
      intro id2 hi2
      exact h (t, v) (List.mem_cons_self _ _) id2 hi2

theorem phaseBGo_occPresent {tl : TaskL} :
    ∀ (l : TaskL) (slots : SlotL) (w : Wc),
      (∀ e ∈ l, containsKey tl e.1 = true) → OccPresent tl slots →
        OccPresent tl (phaseBGo l slots w).1 := by
  intro l
  induction l with
  | nil => intro slots w _ h; simpa only [phaseBGo] using h
  | cons e rest ih =>
    intro slots w hk h
    obtain ⟨id, t⟩ := e
    simp only [phaseBGo]
    refine ih _ _ (fun e2 he2 => hk e2 (List.mem_cons_of_mem _ he2)) ?_
    exact claimSlots_occPresent _ _ (hk (id, t) (List.mem_cons_self _ _)) slots _ h

theorem setSlot_occPresent {tl : TaskL} {slots : SlotL} {s : Int} {id : String}
    (hid : containsKey tl id = true) (h : OccPresent tl slots) :
    OccPresent tl (setSlot slots s id) := by
  intro p hp id2 hid2
  rcases List.mem_map.mp hp with ⟨q, hq, hpq⟩
  by_cases hqs : q.1 = s
  · rw [if_pos hqs] at hpq
    rw [← hpq] at hid2
    cases hid2
    exact hid
  · rw [if_neg hqs] at hpq
    subst hpq
    exact h q hq id2 hid2

theorem evictLoop_occPresent {tl : TaskL} {id : String}
    (hid : containsKey tl id = true) :
    ∀ (cands : List (Int × String)) (slots : SlotL) (w : Wc),
      OccPresent tl slots → OccPresent tl (evictLoop id cands slots w).1 := by
  intro cands
  induction cands with
  | nil => intro slots w h; simpa only [evictLoop] using h
  | cons c rest ih =>
    intro slots w h
    obtain ⟨s, vid⟩ := c
    simp only [evictLoop]
    split
    · exact h
    · exact ih _ _ (setSlot_occPresent hid h)

theorem onePassGo_occPresent {tl : TaskL} :
    ∀ (l : TaskL) (slots : SlotL) (w : Wc) (prog : Bool),
      (∀ e ∈ l, containsKey tl e.1 = true) → OccPresent tl slots →
        OccPresent tl (onePassGo tl l slots w prog).1 := by
  intro l
  induction l with
  | nil => intro slots w prog _ h; simpa only [onePassGo] using h
  | cons e rest ih =>
    intro slots w prog hk h
    obtain ⟨id, t⟩ := e
    simp only [onePassGo]
    split
    · refine ih _ _ _ (fun e2 he2 => hk e2 (List.mem_cons_of_mem _ he2)) ?_
      exact evictLoop_occPresent (hk (id, t) (List.mem_cons_self _ _)) _ slots w h
    · exact ih _ _ _ (fun e2 he2 => hk e2 (List.mem_cons_of_mem _ he2)) h

theorem hungerGames_occPresent {tl : TaskL}
    (hk : ∀ e ∈ tl, containsKey tl e.1 = true) :
    ∀ (n : Nat) (slots : SlotL) (w : Wc), OccPresent tl slots →
      OccPresent tl (hungerGames tl n slots w).1 := by
  intro n
  induction n with
  | zero => intro slots w h; simpa only [hungerGames] using h
  | succ m ih =>
    intro slots w h
    simp only [hungerGames]
    split
    · exact ih _ _ (onePassGo_occPresent tl slots w false hk h)
    · exact onePassGo_occPresent tl slots w false hk h

theorem schedule_occPresent (sch : Schedule) :
    OccPresent sch.tasks (schedule sch).1.slots := by
  have hk : ∀ e ∈ sch.tasks, containsKey sch.tasks e.1 = true := by
    intro e he
    exact containsKey_of_mem (t := e.2) (by rw [Prod.mk.eta]; exact he)
  show OccPresent sch.tasks (scheduleRun sch).1
  unfold scheduleRun phaseB
  apply hungerGames_occPresent hk
  apply phaseBGo_occPresent
  · intro e he
    exact hk e (mem_sortTasks he)
  · exact phaseA_occPresent _ _ _

/-- C8: an occupied slot referencing an id missing from the task table is
emptied (not a failure) by the reclaim pass of the next schedule() call, and
after schedule() returns every occupied slot's id is present in the table. -/
theorem c8_stale_refs_selfheal :
    (∀ sch : Schedule, ∀ p ∈ (schedule sch).1.slots, ∀ id : String,
        p.2 = some id → containsKey sch.tasks id = true) ∧
      (∀ (tl : TaskL) (slots : SlotL) (w : Wc) (t : Int) (g : String),
        (t, some g) ∈ slots → containsKey tl g = false →
          (t, none) ∈ (phaseA tl slots w).1) := by
  constructor
  · intro sch
    exact schedule_occPresent sch
  · intro tl slots
    induction slots with
    | nil => intro w t g h; simp at h
    | cons x rest ih =>
      intro w t g h hg
      obtain ⟨t2, v⟩ := x
      rcases List.mem_cons.mp h with heq | hmem
      · cases heq
        simp only [phaseA, hg]
        simp
      · cases v with
        | none =>
          simp only [phaseA]
          exact List.mem_cons_of_mem _ (ih w t g hmem hg)
        | some id2 =>
          simp only [phaseA]
          by_cases hc : containsKey tl id2
          · rw [if_pos hc]
            by_cases hw : 0 ≤ w id2
            · rw [if_pos hw]
              exact List.mem_cons_of_mem _ (ih w t g hmem hg)
            · rw [if_neg hw]
              exact List.mem_cons_of_mem _ (ih _ t g hmem hg)
          · rw [if_neg hc]
            exact List.mem_cons_of_mem _ (ih w t g hmem hg)

/-- C8 stale-reference input: one slot held by an id absent from the table. -/
def staleSched : Schedule :=
  { tasks := c1Tasks, slots := [(5, some "ghost")], timesliceLength := 1000000000 }

/-- Witness for C8: on staleSched the stale slot is healed by phase A, and the
post-call state of schedule() references only present ids. -/
theorem c8_stale_refs_selfheal_witness :
    containsKey staleSched.tasks "a" = true ∧
      ((5 : Int), (none : Option String)) ∈
        (phaseA c1Tasks [(5, some "ghost")] (fun _ => 0)).1 :=
  ⟨c8_stale_refs_selfheal.1 staleSched (5, some "a") (by decide) "a" rfl,
   c8_stale_refs_selfheal.2 c1Tasks [(5, some "ghost")] (fun _ => 0) 5 "ghost"
     (by decide) (by decide)⟩

/-! ## The containment invariant (claim C2) -/

/-- Every occupied slot's time lies inside its occupant's working period (and
the occupant is present in the table, which check_times in the source assumes
by unchecked indexing). -/
def Contained (tl : TaskL) (slots : SlotL) : Prop :=
  ∀ p ∈ slots, ∀ id : String, p.2 = some id →
    ∃ t, lookupTask tl id = some t ∧ t.wpStart ≤ p.1 ∧ p.1 < t.wpEnd

/-- Executable form of the containment invariant. -/
def containedB (tl : TaskL) (slots : SlotL) : Bool :=
  slots.all (fun p =>
    match p.2 with
    | none => true
    | some id =>
      match lookupTask tl id with
      | none => false
      | some t => decide (t.wpStart ≤ p.1 ∧ p.1 < t.wpEnd))

theorem containedB_iff {tl : TaskL} {slots : SlotL} :
    containedB tl slots = true ↔ Contained tl slots := by
  unfold containedB Contained
  rw [List.all_eq_true]
  constructor
  · intro h p hp id hid
    have h2 := h p hp
    rw [hid] at h2
    dsimp only at h2
    cases hl : lookupTask tl id with
    | none => rw [hl] at h2; simp at h2
    | some t =>
      rw [hl] at h2
      simp only [decide_eq_true_eq] at h2
      exact ⟨t, rfl, h2⟩
  · intro h p hp
    cases hv : p.2 with
    | none => simp [hv]
    | some id =>
      obtain ⟨t, hl, hb⟩ := h p hp id hv
      dsimp only
      rw [hl]
      simpa using hb

theorem contained_of_cons {tl : TaskL} {x : Int × Option String} {l : SlotL}
    (h : Contained tl (x :: l)) : Contained tl l :=
  fun p hp => h p (List.mem_cons_of_mem _ hp)

theorem contained_cons {tl : TaskL} {x : Int × Option String} {l : SlotL}
    (hx : ∀ id : String, x.2 = some id →
      ∃ t, lookupTask tl id = some t ∧ t.wpStart ≤ x.1 ∧ x.1 < t.wpEnd)
    (hl : Contained tl l) : Contained tl (x :: l) := by
  intro p hp id hid
  rcases List.mem_cons.mp hp with heq | hmem
  · subst heq; exact hx id hid
  · exact hl p hmem id hid

theorem contained_none_cons {tl : TaskL} {t : Int} {l : SlotL}
    (hl : Contained tl l) : Contained tl ((t, none) :: l) :=
  contained_cons (by intro id h; simp at h) hl

theorem phaseA_contained (tl : TaskL) :
    ∀ (slots : SlotL) (w : Wc), Contained tl slots →
      Contained tl (phaseA tl slots w).1 := by
  intro slots
  induction slots with
  | nil => intro w h; simpa only [phaseA] using h
  | cons x rest ih =>
    intro w h
    obtain ⟨t, v⟩ := x
    cases v with
    | none =>
      simp only [phaseA]
      exact contained_none_cons (ih w (contained_of_cons h))
    | some id =>
      simp only [phaseA]
      by_cases hc : containsKey tl id
      · rw [if_pos hc]
        by_cases hw : 0 ≤ w id
        · rw [if_pos hw]
          refine contained_cons ?_ (ih w (contained_of_cons h))
          intro id2 h2
          exact h (t, some id) (List.mem_cons_self _ _) id2 h2
        · rw [if_neg hw]
          exact contained_none_cons (ih _ (contained_of_cons h))
      · rw [if_neg hc]
        exact contained_none_cons (ih w (contained_of_cons h))

theorem claimSlots_contained {tl : TaskL} {id : String} {t : Task}
    (hl : lookupTask tl id = some t) :
    ∀ (slots : SlotL) (n : Int), Contained tl slots →
      Contained tl (claimSlots id t.wpStart t.wpEnd slots n).1 := by
  intro slots
  induction slots with
  | nil => intro n h; simpa only [claimSlots] using h
  | cons x rest ih =>
    intro n h
    obtain ⟨s, v⟩ := x
    simp only [claimSlots]
    split
    · next hcond =>
      refine contained_cons ?_ (ih _ (contained_of_cons h))
      intro id2 h2
      cases h2
      exact ⟨t, hl, hcond.2.1, hcond.2.2.1⟩
    · refine contained_cons ?_ (ih _ (contained_of_cons h))
      intro id2 h2
      exact h (s, v) (List.mem_cons_self _ _) id2 h2

theorem phaseBGo_contained {tl : TaskL} (hnd : (tl.map Prod.fst).Nodup) :
    ∀ (l : TaskL) (slots : SlotL) (w : Wc),
      (∀ e ∈ l, e ∈ tl) → Contained tl slots →
        Contained tl (phaseBGo l slots w).1 := by
  intro l
  induction l with
  | nil => intro slots w _ h; simpa only [phaseBGo] using h
  | cons e rest ih =>
    intro slots w hmem h
    obtain ⟨id, t⟩ := e
    simp only [phaseBGo]
    refine ih _ _ (fun e2 he2 => hmem e2 (List.mem_cons_of_mem _ he2)) ?_
    exact claimSlots_contained (lookupTask_eq_of_mem hnd
      (hmem (id, t) (List.mem_cons_self _ _))) slots _ h

theorem mem_sortCands {l : List (Int × String × Int)} {x : Int × String × Int}
    (h : x ∈ sortCands l) : x ∈ l := by
  unfold sortCands at h
  exact (List.perm_insertionSort (fun a b => a.2.2 ≤ b.2.2) l).mem_iff.mp h

/-- Everything the rest of the development needs to know about a member of the
candidates vector: it is an occupied slot of the current map, inside the
claimant's working period, and its occupant is a table entry of strictly lower
priority. -/
theorem candidates_mem {tl : TaskL} {t : Task} {slots : SlotL}
    {c : Int × String} (h : c ∈ candidates tl t slots) :
    ∃ vt, (c.1, some c.2) ∈ slots ∧ lookupTask tl c.2 = some vt ∧
      vt.priority < t.priority ∧ t.wpStart ≤ c.1 ∧ c.1 < t.wpEnd := by
  unfold candidates at h
  rcases List.mem_map.mp h with ⟨x, hx, hxc⟩
  rcases List.mem_filter.mp (mem_sortCands hx) with ⟨hx3, hprio⟩
  rcases List.mem_filterMap.mp hx3 with ⟨p, hp, hpx⟩
  rcases List.mem_filter.mp hp with ⟨hpslots, hrange⟩
  cases hv : p.2 with
  | none => rw [hv] at hpx; simp at hpx
  | some vid =>
    rw [hv] at hpx
    replace hpx : (lookupTask tl vid).map (fun vt => (p.1, vid, vt.priority)) =
        some x := hpx
    rcases Option.map_eq_some'.mp hpx with ⟨vt, hlk, hxeq⟩
    subst hxeq
    dsimp only at hxc
    subst hxc
    have hr := of_decide_eq_true hrange
    have hpr := of_decide_eq_true hprio
    refine ⟨vt, ?_, hlk, hpr, hr.1, hr.2⟩
    have hpeq : (p.1, some vid) = p := by
      rw [← hv]
    rw [hpeq]
    exact hpslots

theorem setSlot_contained {tl : TaskL} {slots : SlotL} {s : Int} {id : String}
    {t : Task} (hl : lookupTask tl id = some t)
    (hs : t.wpStart ≤ s ∧ s < t.wpEnd) (h : Contained tl slots) :
    Contained tl (setSlot slots s id) := by
  intro p hp id2 hid2
  rcases List.mem_map.mp hp with ⟨q, hq, hpq⟩
  by_cases hqs : q.1 = s
  · rw [if_pos hqs] at hpq
    rw [← hpq] at hid2 ⊢
    cases hid2
    exact ⟨t, hl, by simpa [hqs] using hs.1, by simpa [hqs] using hs.2⟩
  · rw [if_neg hqs] at hpq
    subst hpq
    exact h q hq id2 hid2

theorem evictLoop_contained {tl : TaskL} {id : String} {t : Task}
    (hl : lookupTask tl id = some t) :
    ∀ (cands : List (Int × String)) (slots : SlotL) (w : Wc),
      (∀ c ∈ cands, t.wpStart ≤ c.1 ∧ c.1 < t.wpEnd) → Contained tl slots →
        Contained tl (evictLoop id cands slots w).1 := by
  intro cands
  induction cands with
  | nil => intro slots w _ h; simpa only [evictLoop] using h
  | cons c rest ih =>
    intro slots w hc h
    obtain ⟨s, vid⟩ := c
    simp only [evictLoop]
    split
    · exact h
    · refine ih _ _ (fun c2 hc2 => hc c2 (List.mem_cons_of_mem _ hc2)) ?_
      exact setSlot_contained hl (hc (s, vid) (List.mem_cons_self _ _)) h

theorem onePassGo_contained {tl : TaskL} (hnd : (tl.map Prod.fst).Nodup) :
    ∀ (l : TaskL) (slots : SlotL) (w : Wc) (prog : Bool),
      (∀ e ∈ l, e ∈ tl) → Contained tl slots →
        Contained tl (onePassGo tl l slots w prog).1 := by
  intro l
  induction l with
  | nil => intro slots w prog _ h; simpa only [onePassGo] using h
  | cons e rest ih =>
    intro slots w prog hmem h
    obtain ⟨id, t⟩ := e
    simp only [onePassGo]
    split
    · refine ih _ _ _ (fun e2 he2 => hmem e2 (List.mem_cons_of_mem _ he2)) ?_
      refine evictLoop_contained
        (lookupTask_eq_of_mem hnd (hmem (id, t) (List.mem_cons_self _ _))) _ slots w
        ?_ h
      intro c hc
      obtain ⟨vt, _, _, _, h1, h2⟩ := candidates_mem hc
      exact ⟨h1, h2⟩
    · exact ih _ _ _ (fun e2 he2 => hmem e2 (List.mem_cons_of_mem _ he2)) h

theorem hungerGames_contained {tl : TaskL} (hnd : (tl.map Prod.fst).Nodup) :
    ∀ (n : Nat) (slots : SlotL) (w : Wc), Contained tl slots →
      Contained tl (hungerGames tl n slots w).1 := by
  intro n
  induction n with
  | zero => intro slots w h; simpa only [hungerGames] using h
  | succ m ih =>
    intro slots w h
    simp only [hungerGames]
    split
    · exact ih _ _ (onePassGo_contained hnd tl slots w false (fun e he => he) h)
    · exact onePassGo_contained hnd tl slots w false (fun e he => he) h

theorem schedule_contained (sch : Schedule) (hnd : (sch.tasks.map Prod.fst).Nodup)
    (h : Contained sch.tasks sch.slots) :
    Contained sch.tasks (schedule sch).1.slots := by
  show Contained sch.tasks (scheduleRun sch).1
  unfold scheduleRun phaseB
  apply hungerGames_contained hnd
  apply phaseBGo_contained hnd
  · intro e he
    exact mem_sortTasks he
  · exact phaseA_contained _ _ _ h

/-! ## Shuffle preserves containment -/

theorem pulled_spec (lo hi : Int) :
    ∀ (L : SlotL) (j0 : Nat) (x : Nat × Int × Option String),
      x ∈ pulled lo hi j0 L →
        ∃ k, x.1 = j0 + k ∧ L.get? k = some (x.2.1, x.2.2) ∧
          lo ≤ x.2.1 ∧ x.2.1 < hi := by
  intro L
  induction L with
  | nil => intro j0 x hx; simp [pulled] at hx
  | cons q rest ih =>
    intro j0 x hx
    obtain ⟨t, v⟩ := q
    simp only [pulled] at hx
    split at hx
    · next hcond =>
      rcases List.mem_cons.mp hx with heq | hmem
      · subst heq
        exact ⟨0, by omega, rfl, hcond.1, hcond.2⟩
      · obtain ⟨k, hk1, hk2, hk3, hk4⟩ := ih (j0 + 1) x hmem
        exact ⟨k + 1, by omega, by simpa using hk2, hk3, hk4⟩
    · simp at hx

/-- When every pulled neighbor's occupant resolves in the table, the filter
stage succeeds, and each accepted index points at a pulled neighbor that is
empty or whose occupant's working period contains the current slot's time. -/
theorem resolveNeighbors_total {tl : TaskL} (lt : Int) :
    ∀ pl : List (Nat × Int × Option String),
      (∀ x ∈ pl, ∀ id : String, x.2.2 = some id → ∃ tk, lookupTask tl id = some tk) →
        ∃ ns, resolveNeighbors tl lt pl = some ns ∧
          ∀ j ∈ ns, ∃ tj vj, (j, tj, vj) ∈ pl ∧
            (vj = none ∨ ∃ id tk, vj = some id ∧ lookupTask tl id = some tk ∧
              tk.wpStart ≤ lt ∧ lt < tk.wpEnd) := by
  intro pl
  induction pl with
  | nil =>
    intro _
    exact ⟨[], rfl, by intro j hj; simp at hj⟩
  | cons x rest ih =>
    intro hres
    obtain ⟨j, tj, vj⟩ := x
    obtain ⟨ns, hns, hprop⟩ := ih (fun y hy => hres y (List.mem_cons_of_mem _ hy))
    cases hvj : vj with
    | none =>
      refine ⟨j :: ns, ?_, ?_⟩
      · simp only [resolveNeighbors, hns]
        rfl
      · intro j2 hj2
        rcases List.mem_cons.mp hj2 with heq | hmem
        · subst heq
          exact ⟨tj, none, List.mem_cons_self _ _, Or.inl rfl⟩
        · obtain ⟨t2, v2, hm, hor⟩ := hprop j2 hmem
          exact ⟨t2, v2, List.mem_cons_of_mem _ hm, hor⟩
    | some id =>
      obtain ⟨tk, htk⟩ := hres (j, tj, vj) (List.mem_cons_self _ _) id hvj
      by_cases hin : tk.wpStart ≤ lt ∧ lt < tk.wpEnd
      · refine ⟨j :: ns, ?_, ?_⟩
        · simp only [resolveNeighbors, htk, hns, if_pos hin]
          rfl
        · intro j2 hj2
          rcases List.mem_cons.mp hj2 with heq | hmem
          · subst heq
            exact ⟨tj, some id, List.mem_cons_self _ _,
              Or.inr ⟨id, tk, rfl, htk, hin.1, hin.2⟩⟩
          · obtain ⟨t2, v2, hm, hor⟩ := hprop j2 hmem
            exact ⟨t2, v2, List.mem_cons_of_mem _ hm, hor⟩
      · refine ⟨ns, ?_, ?_⟩
        · simp only [resolveNeighbors, htk, hns, if_neg hin]
        · intro j2 hj2
          obtain ⟨t2, v2, hm, hor⟩ := hprop j2 hj2
          exact ⟨t2, v2, List.mem_cons_of_mem _ hm, hor⟩

theorem get?_set_ne_helper {l : SlotL} {m n : Nat} {a : Int × Option String}
    (h : m ≠ n) : (l.set m a).get? n = l.get? n := by
  simp [List.get?_eq_getElem?, List.getElem?_set_ne h]

theorem swap_contained {tl : TaskL} {slots : SlotL} {i j : Nat}
    {lt jt : Int} {left right : Option String}
    (h : Contained tl slots)
    (hleft : ∀ id : String, left = some id →
      ∃ tc, lookupTask tl id = some tc ∧ tc.wpStart ≤ jt ∧ jt < tc.wpEnd)
    (hright : ∀ id : String, right = some id →
      ∃ tk, lookupTask tl id = some tk ∧ tk.wpStart ≤ lt ∧ lt < tk.wpEnd) :
    Contained tl ((slots.set i (lt, right)).set j (jt, left)) := by
  intro p hp id hid
  rcases List.mem_or_eq_of_mem_set hp with hp1 | hpe
  · rcases List.mem_or_eq_of_mem_set hp1 with hp2 | hpe2
    · exact h p hp2 id hid
    · subst hpe2
      exact hright id hid
  · subst hpe
    exact hleft id hid

/-- One shuffle iteration on a contained slot map succeeds and preserves
containment, whatever the random pick. -/
theorem shuffleStep_contained {tl : TaskL} {slots : SlotL} (i pick : Nat)
    (h : Contained tl slots) :
    ∃ s2, shuffleStep tl slots i pick = some s2 ∧ Contained tl s2 := by
  unfold shuffleStep
  cases hi : slots.get? i with
  | none => exact ⟨slots, rfl, h⟩
  | some pr =>
    obtain ⟨lt, left⟩ := pr
    dsimp only
    have hmemi : (lt, left) ∈ slots := List.get?_mem hi
    have hrange : ∃ lo hi2, occupantRange tl left = some (lo, hi2) ∧
        (∀ id : String, left = some id →
          ∃ tc, lookupTask tl id = some tc ∧ lo = tc.wpStart ∧ hi2 = tc.wpEnd) := by
      cases hleft : left with
      | none => exact ⟨minUtcTs, maxUtcTs, rfl, by intro id hid; cases hid⟩
      | some id =>
        obtain ⟨tc, hlk, _, _⟩ := h (lt, left) hmemi id hleft
        refine ⟨tc.wpStart, tc.wpEnd, ?_, ?_⟩
        · simp [occupantRange, hlk]
        · intro id2 hid2
          cases hid2
          exact ⟨tc, hlk, rfl, rfl⟩
    obtain ⟨lo, hi2, hoc, hocp⟩ := hrange
    rw [hoc]
    dsimp only
    have hpulled : ∀ x ∈ pulled lo hi2 (i + 1) (slots.drop (i + 1)),
        ∀ id : String, x.2.2 = some id → ∃ tk, lookupTask tl id = some tk := by
      intro x hx id hid
      obtain ⟨k, _, hget, _, _⟩ := pulled_spec lo hi2 _ _ x hx
      have hx2 : (x.2.1, x.2.2) ∈ slots :=
        List.get?_mem (by rw [List.get?_drop] at hget; exact hget)
      obtain ⟨tk, hlk, _, _⟩ := h (x.2.1, x.2.2) hx2 id hid
      exact ⟨tk, hlk⟩
    obtain ⟨ns, hns, hnsp⟩ := resolveNeighbors_total lt _ hpulled
    rw [hns]
    dsimp only
    by_cases hlen : (i :: ns).length < 2
    · rw [if_pos hlen]
      exact ⟨slots, rfl, h⟩
    rw [if_neg hlen]
    by_cases hk0 : pick % (i :: ns).length = 0
    · rw [if_pos hk0]
      exact ⟨slots, rfl, h⟩
    rw [if_neg hk0]
    cases hj : (i :: ns).get? (pick % (i :: ns).length) with
    | none => exact ⟨slots, rfl, h⟩
    | some j =>
      refine ⟨shuffleSwap slots i lt left j, rfl, ?_⟩
      have hjns : j ∈ ns := by
        cases hx : pick % (i :: ns).length with
        | zero => exact absurd hx hk0
        | succ m =>
          rw [hx] at hj
          exact List.get?_mem (by simpa using hj)
      obtain ⟨tj, vj, hpl, hor⟩ := hnsp j hjns
      obtain ⟨k, hk1, hk2, hk3, hk4⟩ := pulled_spec lo hi2 _ _ (j, tj, vj) hpl
      dsimp only at hk1 hk2 hk3 hk4
      have hgetj : slots.get? j = some (tj, vj) := by
        rw [List.get?_drop] at hk2
        rw [show j = i + 1 + k from hk1]
        exact hk2
      unfold shuffleSwap
      rw [hgetj]
      refine swap_contained h ?_ ?_
      · intro id hid
        obtain ⟨tc, hlk, hlo, hhi⟩ := hocp id hid
        exact ⟨tc, hlk, by omega, by omega⟩
      · intro id hid
        rcases hor with hnone | ⟨id2, tk, hvj, hlk, hb1, hb2⟩
        · rw [hnone] at hid
          cases hid
        · rw [hvj] at hid
          cases hid
          exact ⟨tk, hlk, hb1, hb2⟩

theorem shuffleGo_contained {tl : TaskL} (pick : Nat → Nat) :
    ∀ (idxs : List Nat) (slots : SlotL), Contained tl slots →
      ∃ s2, shuffleGo tl pick idxs slots = some s2 ∧ Contained tl s2 := by
  intro idxs
  induction idxs with
  | nil => intro slots h; exact ⟨slots, rfl, h⟩
  | cons i rest ih =>
    intro slots h
    obtain ⟨s2, hs2, hc2⟩ := shuffleStep_contained i (pick i) h
    simp only [shuffleGo, hs2]
    exact ih s2 hc2

theorem shuffleSlots_contained {tl : TaskL} (pick : Nat → Nat) {slots : SlotL}
    (h : Contained tl slots) :
    ∃ s2, shuffleSlots tl pick slots = some s2 ∧ Contained tl s2 :=
  shuffleGo_contained pick _ slots h

theorem shuffleN_contained {tl : TaskL} (picks : Nat → Nat → Nat) :
    ∀ (n : Nat) (slots : SlotL), Contained tl slots →
      ∃ s2, shuffleN tl picks n slots = some s2 ∧ Contained tl s2 := by
  intro n
  induction n with
  | zero => intro slots h; exact ⟨slots, rfl, h⟩
  | succ m ih =>
    intro slots h
    obtain ⟨s2, hs2, hc2⟩ := shuffleSlots_contained (picks m) h
    simp only [shuffleN, hs2]
    exact ih s2 hc2

/-- C2: starting from a schedule state in which every occupied slot's time lies
inside its occupant's working period (and the task table, as a HashMap, has
unique keys), one schedule() call followed by any number of shuffle() calls -
whatever the random choices - keeps every occupied slot's time inside the
working period of its occupant. -/
theorem c2_containment_preserved (sch : Schedule)
    (hnd : (sch.tasks.map Prod.fst).Nodup)
    (hc : containedB sch.tasks sch.slots = true) (n : Nat)
    (picks : Nat → Nat → Nat) :
    containedB sch.tasks (schedule sch).1.slots = true ∧
      ∃ s2, shuffleN sch.tasks picks n (schedule sch).1.slots = some s2 ∧
        containedB sch.tasks s2 = true := by
  have h1 := schedule_contained sch hnd (containedB_iff.mp hc)
  refine ⟨containedB_iff.mpr h1, ?_⟩
  obtain ⟨s2, hs2, hc2⟩ := shuffleN_contained picks n _ h1
  exact ⟨s2, hs2, containedB_iff.mpr hc2⟩

/-- Witness for C2: the two-task single-slot schedule, one shuffle call. -/
theorem c2_containment_preserved_witness :
    ((c1Sched.tasks.map Prod.fst).Nodup ∧
        containedB c1Sched.tasks c1Sched.slots = true) ∧
      (containedB c1Sched.tasks (schedule c1Sched).1.slots = true ∧
        ∃ s2, shuffleN c1Sched.tasks (fun _ _ => 0) 1 (schedule c1Sched).1.slots =
            some s2 ∧ containedB c1Sched.tasks s2 = true) :=
  ⟨⟨by decide, by decide⟩,
    c2_containment_preserved c1Sched (by decide) (by decide) 1 (fun _ _ => 0)⟩

/-! ## Termination of the hunger games (claim C5) -/

theorem key_unique {tl : TaskL} (hnd : (tl.map Prod.fst).Nodup)
    {a b : String × Task} (ha : a ∈ tl) (hb : b ∈ tl) (heq : a.1 = b.1) :
    a = b := by
  induction tl with
  | nil => simp at ha
  | cons x rest ih =>
    simp only [List.map_cons, List.nodup_cons] at hnd
    rcases List.mem_cons.mp ha with ha1 | ha2
    · rcases List.mem_cons.mp hb with hb1 | hb2
      · rw [ha1, hb1]
      · exfalso
        apply hnd.1
        rw [← ha1, heq]
        exact List.mem_map.mpr ⟨b, hb2, rfl⟩
    · rcases List.mem_cons.mp hb with hb1 | hb2
      · exfalso
        apply hnd.1
        rw [← hb1, ← heq]
        exact List.mem_map.mpr ⟨a, ha2, rfl⟩
      · exact ih hnd.2 ha2 hb2

theorem phi_congr {tl : TaskL} {w1 w2 : Wc}
    (h : ∀ e ∈ tl, w1 e.1 = w2 e.1) : phi tl w1 = phi tl w2 := by
  unfold phi
  congr 1
  exact List.map_congr_left (fun e he => by rw [h e he])

theorem rank_lt {tl : TaskL} {vid : String} {vt : Task}
    (hmem : (vid, vt) ∈ tl) {t : Task} (hpri : vt.priority < t.priority) :
    rank tl vt < rank tl t := by
  unfold rank
  have hperm := List.perm_cons_erase hmem
  rw [hperm.countP_eq, hperm.countP_eq]
  rw [List.countP_cons_of_neg _ _ (by simp)]
  rw [List.countP_cons_of_pos _ _ (by simpa using hpri)]
  refine Nat.lt_succ_of_le ?_
  apply List.countP_mono_left
  intro a _ hdec
  simp only [decide_eq_true_eq] at hdec ⊢
  exact lt_trans hdec hpri

/-- A task table with unique keys splits, up to permutation, into two named
entries and a remainder avoiding both keys. -/
theorem two_entry_split {tl : TaskL} (hnd : (tl.map Prod.fst).Nodup)
    {id vid : String} {ct vt : Task} (h1 : (id, ct) ∈ tl) (h2 : (vid, vt) ∈ tl)
    (hne : vid ≠ id) :
    ∃ l2 : TaskL, tl.Perm ((id, ct) :: (vid, vt) :: l2) ∧
      ∀ e ∈ l2, e.1 ≠ id ∧ e.1 ≠ vid := by
  obtain ⟨s, t, hst⟩ := List.append_of_mem h1
  have hp1 : tl.Perm ((id, ct) :: (s ++ t)) := by
    rw [hst]
    exact List.perm_middle
  have h2b : (vid, vt) ∈ s ++ t := by
    rcases List.mem_cons.mp (hp1.mem_iff.mp h2) with heq | hm
    · exact absurd (congrArg Prod.fst heq) hne
    · exact hm
  obtain ⟨u, v, huv⟩ := List.append_of_mem h2b
  have hp2 : (s ++ t).Perm ((vid, vt) :: (u ++ v)) := by
    rw [huv]
    exact List.perm_middle
  have hperm : tl.Perm ((id, ct) :: (vid, vt) :: (u ++ v)) :=
    hp1.trans (List.Perm.cons _ hp2)
  refine ⟨u ++ v, hperm, ?_⟩
  have hkeys := ((hperm.map Prod.fst).nodup_iff).mp hnd
  simp only [List.map_cons, List.nodup_cons] at hkeys
  obtain ⟨hid1, hvid1, _⟩ := hkeys
  intro e he
  refine ⟨fun hkey => hid1 ?_, fun hkey => hvid1 ?_⟩
  · exact List.mem_cons_of_mem _ (List.mem_map.mpr ⟨e, he, hkey⟩)
  · exact List.mem_map.mpr ⟨e, he, hkey⟩

/-- A single eviction step (bump the victim's counter, decrement the
claimant's) strictly decreases the termination measure. -/
theorem phi_step {tl : TaskL} (hnd : (tl.map Prod.fst).Nodup)
    {id : String} {ct : Task} (hidmem : (id, ct) ∈ tl)
    {vid : String} {vt : Task} (hvid : lookupTask tl vid = some vt)
    (hpri : vt.priority < ct.priority) {w : Wc} (hpos : 0 < w id) :
    phi tl (updWc (updWc w vid (w vid + 1)) id
      (updWc w vid (w vid + 1) id - 1)) < phi tl w := by
  have hvmem : (vid, vt) ∈ tl := lookupTask_mem hvid
  have hne : vid ≠ id := by
    intro he
    subst he
    have heq := key_unique hnd hvmem hidmem rfl
    have hteq : vt = ct := congrArg Prod.snd heq
    rw [hteq] at hpri
    exact lt_irrefl _ hpri
  set w2 : Wc := updWc (updWc w vid (w vid + 1)) id
    (updWc w vid (w vid + 1) id - 1) with hw2
  have hw2id : w2 id = w id - 1 := by
    rw [hw2, updWc_self, updWc_ne _ _ _ (Ne.symm hne)]
  have hw2vid : w2 vid = w vid + 1 := by
    rw [hw2, updWc_ne _ _ _ hne, updWc_self]
  have hw2other : ∀ k, k ≠ id → k ≠ vid → w2 k = w k := by
    intro k hk1 hk2
    rw [hw2, updWc_ne _ _ _ hk1, updWc_ne _ _ _ hk2]
  obtain ⟨l2, hperm, hl2⟩ := two_entry_split hnd hidmem hvmem hne
  have hsum : ∀ u : Wc, phi tl u =
      (u id).toNat * rank tl ct + ((u vid).toNat * rank tl vt +
        (l2.map (fun e => (u e.1).toNat * rank tl e.2)).sum) := by
    intro u
    unfold phi
    rw [(hperm.map (fun e => (u e.1).toNat * rank tl e.2)).sum_eq]
    simp [List.map_cons, List.sum_cons]
  rw [hsum w2, hsum w]
  have hrest : (l2.map (fun e => (w2 e.1).toNat * rank tl e.2)).sum =
      (l2.map (fun e => (w e.1).toNat * rank tl e.2)).sum := by
    congr 1
    apply List.map_congr_left
    intro e he
    rw [hw2other e.1 (hl2 e he).1 (hl2 e he).2]
  rw [hrest, hw2id, hw2vid]
  have hBA : rank tl vt < rank tl ct := rank_lt hvmem hpri
  have h1 : (w id - 1).toNat = (w id).toNat - 1 := by omega
  have h3 : 1 ≤ (w id).toNat := by omega
  have h2 : (w vid + 1).toNat ≤ (w vid).toNat + 1 := by omega
  rw [h1]
  obtain ⟨k, hk⟩ : ∃ k, (w id).toNat = k + 1 := ⟨(w id).toNat - 1, by omega⟩
  rw [hk]
  simp only [Nat.add_sub_cancel]
  have hXB : (w vid + 1).toNat * rank tl vt ≤
      (w vid).toNat * rank tl vt + rank tl vt := by
    calc (w vid + 1).toNat * rank tl vt
        ≤ ((w vid).toNat + 1) * rank tl vt := Nat.mul_le_mul_right _ h2
      _ = (w vid).toNat * rank tl vt + rank tl vt := by rw [Nat.add_mul, one_mul]
  have hkk : (k + 1) * rank tl ct = k * rank tl ct + rank tl ct := by
    rw [Nat.add_mul, one_mul]
  linarith [hXB, hBA, hkk]

theorem evictLoop_phi {tl : TaskL} (hnd : (tl.map Prod.fst).Nodup)
    {id : String} {ct : Task} (hidmem : (id, ct) ∈ tl) :
    ∀ (cands : List (Int × String)) (slots : SlotL) (w : Wc),
      0 < w id →
      (∀ c ∈ cands, ∃ vt, lookupTask tl c.2 = some vt ∧
        vt.priority < ct.priority) →
      phi tl (evictLoop id cands slots w).2 ≤ phi tl w ∧
        (cands ≠ [] → phi tl (evictLoop id cands slots w).2 < phi tl w) := by
  intro cands
  induction cands with
  | nil =>
    intro slots w hpos hval
    exact ⟨le_refl _, fun h => absurd rfl h⟩
  | cons c rest ih =>
    intro slots w hpos hval
    obtain ⟨s, vid⟩ := c
    obtain ⟨vt, hvt, hpri⟩ := hval (s, vid) (List.mem_cons_self _ _)
    have hstep : phi tl (updWc (updWc w vid (w vid + 1)) id
        (updWc w vid (w vid + 1) id - 1)) < phi tl w :=
      phi_step hnd hidmem hvt hpri hpos
    simp only [evictLoop]
    split
    · exact ⟨le_of_lt hstep, fun _ => hstep⟩
    · next hnv =>
      have hw1id : w id ≤ updWc w vid (w vid + 1) id := by
        unfold updWc
        split
        · next heq => rw [heq]; omega
        · exact le_refl _
      have hpos2 : 0 < (updWc (updWc w vid (w vid + 1)) id
          (updWc w vid (w vid + 1) id - 1)) id := by
        rw [updWc_self]
        omega
      have hrec := ih (setSlot slots s id) _ hpos2
        (fun c2 hc2 => hval c2 (List.mem_cons_of_mem _ hc2))
      have hfin := lt_of_le_of_lt hrec.1 hstep
      exact ⟨le_of_lt hfin, fun _ => hfin⟩

theorem onePassGo_phi {tl : TaskL} (hnd : (tl.map Prod.fst).Nodup) :
    ∀ (l : TaskL) (slots : SlotL) (w : Wc) (prog : Bool),
      (∀ e ∈ l, e ∈ tl) →
      phi tl (onePassGo tl l slots w prog).2.1 ≤ phi tl w ∧
        ((onePassGo tl l slots w prog).2.2 = true → prog = true ∨
          phi tl (onePassGo tl l slots w prog).2.1 < phi tl w) := by
  intro l
  induction l with
  | nil =>
    intro slots w prog _
    simp only [onePassGo]
    exact ⟨le_refl _, fun h => Or.inl h⟩
  | cons e rest ih =>
    intro slots w prog hmem
    obtain ⟨id, t⟩ := e
    simp only [onePassGo]
    split
    · next hpos =>
      have hval : ∀ c ∈ candidates tl t slots,
          ∃ vt, lookupTask tl c.2 = some vt ∧ vt.priority < t.priority := by
        intro c hc
        obtain ⟨vt, _, hlk, hpri, _, _⟩ := candidates_mem hc
        exact ⟨vt, hlk, hpri⟩
      have hev := evictLoop_phi hnd (hmem (id, t) (List.mem_cons_self _ _))
        (candidates tl t slots) slots w hpos hval
      have hrec := ih (evictLoop id (candidates tl t slots) slots w).1
        (evictLoop id (candidates tl t slots) slots w).2
        (prog || !(candidates tl t slots).isEmpty)
        (fun e2 he2 => hmem e2 (List.mem_cons_of_mem _ he2))
      constructor
      · exact le_trans hrec.1 hev.1
      · intro hpt
        rcases hrec.2 hpt with hp | hlt
        · rw [Bool.or_eq_true] at hp
          rcases hp with hp1 | hp2
          · exact Or.inl hp1
          · have hcne : candidates tl t slots ≠ [] := by
              intro hnil
              rw [hnil] at hp2
              simp at hp2
            exact Or.inr (lt_of_le_of_lt hrec.1 (hev.2 hcne))
        · exact Or.inr (lt_of_lt_of_le hlt hev.1)
    · exact ih slots w prog (fun e2 he2 => hmem e2 (List.mem_cons_of_mem _ he2))

theorem hungerGames_completes {tl : TaskL} (hnd : (tl.map Prod.fst).Nodup) :
    ∀ (n : Nat) (slots : SlotL) (w : Wc), phi tl w < n →
      (hungerGames tl n slots w).2.2 = true := by
  intro n
  induction n with
  | zero =>
    intro slots w h
    exact absurd h (Nat.not_lt_zero _)
  | succ m ih =>
    intro slots w h
    simp only [hungerGames]
    split
    · next hpr =>
      apply ih
      have hp := onePassGo_phi hnd tl slots w false (fun e he => he)
      unfold onePass at hpr
      rcases hp.2 hpr with hfalse | hlt
      · exact absurd hfalse (by simp)
      · unfold onePass
        omega
    · rfl

theorem scheduleRun_flag (sch : Schedule)
    (hnd : (sch.tasks.map Prod.fst).Nodup) :
    (scheduleRun sch).2.2 = true := by
  unfold scheduleRun
  apply hungerGames_completes hnd
  exact Nat.lt_succ_self _

/-- C5: schedule() terminates on every input state with a duplicate-free task
table: the hunger-games loop performs only finitely many evictions (each one
strictly decreases the weighted outstanding-requirement measure phi), and the
loop exits through its zero-evictions test, never by exhausting the fuel
phi + 1 built into the embedding. -/
theorem c5_schedule_terminates (sch : Schedule)
    (hnd : (sch.tasks.map Prod.fst).Nodup) :
    scheduleTerminates sch = true :=
  scheduleRun_flag sch hnd

/-- Witness for C5: the two-task single-slot schedule. -/
theorem c5_schedule_terminates_witness :
    (c1Sched.tasks.map Prod.fst).Nodup ∧ scheduleTerminates c1Sched = true :=
  ⟨by decide, c5_schedule_terminates c1Sched (by decide)⟩

/-! ## Nonnegative counters and the final-pass characterization (claim C3) -/

/-- Every table key's counter is nonnegative. -/
def NonnegWc (tl : TaskL) (w : Wc) : Prop :=
  ∀ e ∈ tl, 0 ≤ w e.1

theorem updWc_bump_ge (w : Wc) (a k : String) : w k ≤ updWc w a (w a + 1) k := by
  unfold updWc
  split
  · next h => rw [h]; omega
  · exact le_refl _

theorem countSlots_cons (x : Int × Option String) (rest : SlotL) (id : String) :
    countSlots (x :: rest) id =
      countSlots rest id + (if x.2 = some id then 1 else 0) := by
  by_cases h : x.2 = some id
  · simp [countSlots, List.filter_cons, h]
  · simp [countSlots, List.filter_cons, h]

theorem phaseA_wc_mono (tl : TaskL) :
    ∀ (slots : SlotL) (w : Wc) (id : String), w id ≤ (phaseA tl slots w).2 id := by
  intro slots
  induction slots with
  | nil => intro w id; exact le_refl _
  | cons x rest ih =>
    intro w id
    obtain ⟨t, v⟩ := x
    cases v with
    | none => exact ih w id
    | some j =>
      simp only [phaseA]
      by_cases hc : containsKey tl j
      · rw [if_pos hc]
        by_cases hw : 0 ≤ w j
        · rw [if_pos hw]
          exact ih w id
        · rw [if_neg hw]
          refine le_trans ?_ (ih (updWc w j (w j + 1)) id)
          exact updWc_bump_ge w j id
      · rw [if_neg hc]
        exact ih w id

theorem phaseA_wc_ge (tl : TaskL) :
    ∀ (slots : SlotL) (w : Wc) (id : String), containsKey tl id = true →
      min 0 (w id + countSlots slots id) ≤ (phaseA tl slots w).2 id := by
  intro slots
  induction slots with
  | nil =>
    intro w id _
    simp only [phaseA, countSlots, List.filter_nil, List.length_nil]
    omega
  | cons x rest ih =>
    intro w id hid
    obtain ⟨t, v⟩ := x
    rw [countSlots_cons]
    cases v with
    | none =>
      simp only [phaseA]
      dsimp only
      have := ih w id hid
      have hnone : ¬ ((none : Option String) = some id) := by simp
      rw [if_neg hnone]
      omega
    | some j =>
      simp only [phaseA]
      by_cases hc : containsKey tl j
      · rw [if_pos hc]
        by_cases hw : 0 ≤ w j
        · rw [if_pos hw]
          dsimp only
          by_cases hij : j = id
          · subst hij
            have := phaseA_wc_mono tl rest w j
            omega
          · have := ih w id hid
            rw [if_neg (by simpa using hij)]
            omega
        · rw [if_neg hw]
          dsimp only
          by_cases hij : j = id
          · subst hij
            have := ih (updWc w j (w j + 1)) j hid
            rw [updWc_self] at this
            rw [if_pos rfl]
            omega
          · have := ih (updWc w j (w j + 1)) id hid
            rw [updWc_ne _ _ _ (Ne.symm hij)] at this
            rw [if_neg (by simpa using hij)]
            omega
      · rw [if_neg hc]
        dsimp only
        by_cases hij : j = id
        · subst hij
          exact absurd hid hc
        · have := ih w id hid
          rw [if_neg (by simpa using hij)]
          omega

theorem phaseA_nonneg {tl : TaskL} {slots : SlotL} {slice : Nat}
    (hnd : (tl.map Prod.fst).Nodup) :
    NonnegWc tl (phaseA tl slots (initWc tl slots slice)).2 := by
  intro e he
  have hck : containsKey tl e.1 = true :=
    containsKey_of_mem (t := e.2) (by rw [Prod.mk.eta]; exact he)
  have hb := phaseA_wc_ge tl slots (initWc tl slots slice) e.1 hck
  have hinit : initWc tl slots slice e.1 =
      (e.2.dividedInto slice : Int) - (countSlots slots e.1 : Int) := by
    unfold initWc
    rw [lookupTask_eq_of_mem hnd (by rw [Prod.mk.eta]; exact he)]
  rw [hinit] at hb
  omega

theorem claimSlots_n_ge (id : String) (lo hi : Int) :
    ∀ (slots : SlotL) (n : Int), min 0 n ≤ (claimSlots id lo hi slots n).2 := by
  intro slots
  induction slots with
  | nil => intro n; simp only [claimSlots]; omega
  | cons x rest ih =>
    intro n
    obtain ⟨t, v⟩ := x
    simp only [claimSlots]
    split
    · next hcond =>
      dsimp only
      have := ih (n - 1)
      have hn := hcond.1
      omega
    · dsimp only
      have := ih n
      omega

theorem phaseBGo_nonneg {tl : TaskL} :
    ∀ (l : TaskL) (slots : SlotL) (w : Wc),
      (∀ e ∈ l, e ∈ tl) → NonnegWc tl w →
        NonnegWc tl (phaseBGo l slots w).2 := by
  intro l
  induction l with
  | nil => intro slots w _ h; simpa only [phaseBGo] using h
  | cons e rest ih =>
    intro slots w hmem h
    obtain ⟨id, t⟩ := e
    simp only [phaseBGo]
    refine ih _ _ (fun e2 he2 => hmem e2 (List.mem_cons_of_mem _ he2)) ?_
    intro e2 he2
    by_cases hk : e2.1 = id
    · rw [hk, updWc_self]
      have hwpos : 0 ≤ w id := h (id, t) (hmem (id, t) (List.mem_cons_self _ _))
      have := claimSlots_n_ge id t.wpStart t.wpEnd slots (w id)
      omega
    · rw [updWc_ne _ _ _ hk]
      exact h e2 he2

theorem evictLoop_nonneg {tl : TaskL} {id : String} :
    ∀ (cands : List (Int × String)) (slots : SlotL) (w : Wc),
      0 < w id → NonnegWc tl w →
        NonnegWc tl (evictLoop id cands slots w).2 := by
  intro cands
  induction cands with
  | nil => intro slots w _ h; simpa only [evictLoop] using h
  | cons c rest ih =>
    intro slots w hpos h
    obtain ⟨s, vid⟩ := c
    have hbump := updWc_bump_ge w vid id
    have hnn2 : NonnegWc tl (updWc (updWc w vid (w vid + 1)) id
        (updWc w vid (w vid + 1) id - 1)) := by
      intro e he
      by_cases h1 : e.1 = id
      · rw [h1, updWc_self]
        omega
      · rw [updWc_ne _ _ _ h1]
        by_cases h2 : e.1 = vid
        · have hke := h e he
          rw [h2] at hke ⊢
          rw [updWc_self]
          omega
        · rw [updWc_ne _ _ _ h2]
          exact h e he
    simp only [evictLoop]
    split
    · exact hnn2
    · next hnv =>
      refine ih _ _ ?_ hnn2
      rw [updWc_self]
      omega

theorem onePassGo_nonneg {tl : TaskL} :
    ∀ (l : TaskL) (slots : SlotL) (w : Wc) (prog : Bool),
      NonnegWc tl w → NonnegWc tl (onePassGo tl l slots w prog).2.1 := by
  intro l
  induction l with
  | nil => intro slots w prog h; simpa only [onePassGo] using h
  | cons e rest ih =>
    intro slots w prog h
    obtain ⟨id, t⟩ := e
    simp only [onePassGo]
    split
    · next hpos => exact ih _ _ _ (evictLoop_nonneg _ _ _ hpos h)
    · exact ih _ _ _ h

theorem hungerGames_nonneg {tl : TaskL} :
    ∀ (n : Nat) (slots : SlotL) (w : Wc), NonnegWc tl w →
      NonnegWc tl (hungerGames tl n slots w).2.1 := by
  intro n
  induction n with
  | zero => intro slots w h; simpa only [hungerGames] using h
  | succ m ih =>
    intro slots w h
    simp only [hungerGames]
    split
    · exact ih _ _ (onePassGo_nonneg tl slots w false h)
    · exact onePassGo_nonneg tl slots w false h

theorem scheduleRun_nonneg (sch : Schedule)
    (hnd : (sch.tasks.map Prod.fst).Nodup) :
    NonnegWc sch.tasks (scheduleRun sch).2.1 := by
  unfold scheduleRun phaseB
  apply hungerGames_nonneg
  apply phaseBGo_nonneg _ _ _ (fun e he => mem_sortTasks he)
  exact phaseA_nonneg hnd

theorem onePassGo_prog_mono (tl : TaskL) :
    ∀ (l : TaskL) (slots : SlotL) (w : Wc),
      (onePassGo tl l slots w true).2.2 = true := by
  intro l
  induction l with
  | nil => intro slots w; rfl
  | cons e rest ih =>
    intro slots w
    obtain ⟨id, t⟩ := e
    simp only [onePassGo]
    split
    · simp only [Bool.true_or]
      exact ih _ _
    · exact ih _ _

theorem onePassGo_noprog (tl : TaskL) :
    ∀ (l : TaskL) (slots : SlotL) (w : Wc),
      (onePassGo tl l slots w false).2.2 = false →
        onePassGo tl l slots w false = (slots, w, false) ∧
          ∀ e ∈ l, 0 < w e.1 → candidates tl e.2 slots = [] := by
  intro l
  induction l with
  | nil =>
    intro slots w _
    exact ⟨rfl, by intro e he; simp at he⟩
  | cons e rest ih =>
    intro slots w h
    obtain ⟨id, t⟩ := e
    by_cases hpos : 0 < w id
    · by_cases hc : candidates tl t slots = []
      · have hstep : onePassGo tl ((id, t) :: rest) slots w false =
            onePassGo tl rest slots w false := by
          simp [onePassGo, if_pos hpos, hc, evictLoop]
        rw [hstep] at h
        obtain ⟨heq, hprop⟩ := ih slots w h
        rw [hstep]
        refine ⟨heq, ?_⟩
        intro e2 he2 hp2
        rcases List.mem_cons.mp he2 with he1 | hem
        · cases he1
          exact hc
        · exact hprop e2 hem hp2
      · exfalso
        have hne : (candidates tl t slots).isEmpty = false := by
          cases hl : candidates tl t slots with
          | nil => exact absurd hl hc
          | cons a as => rfl
        have htrue : (onePassGo tl ((id, t) :: rest) slots w false).2.2 = true := by
          simp only [onePassGo, if_pos hpos, hne]
          simpa using onePassGo_prog_mono tl rest _ _
        rw [htrue] at h
        simp at h
    · have hstep : onePassGo tl ((id, t) :: rest) slots w false =
          onePassGo tl rest slots w false := by
        simp only [onePassGo, if_neg hpos]
      rw [hstep] at h
      obtain ⟨heq, hprop⟩ := ih slots w h
      rw [hstep]
      refine ⟨heq, ?_⟩
      intro e2 he2 hp2
      rcases List.mem_cons.mp he2 with he1 | hem
      · cases he1
        exact absurd hp2 hpos
      · exact hprop e2 hem hp2

theorem hungerGames_final (tl : TaskL) :
    ∀ (n : Nat) (slots : SlotL) (w : Wc),
      (hungerGames tl n slots w).2.2 = true →
      ∀ e ∈ tl, 0 < (hungerGames tl n slots w).2.1 e.1 →
        candidates tl e.2 (hungerGames tl n slots w).1 = [] := by
  intro n
  induction n with
  | zero =>
    intro slots w h
    simp only [hungerGames] at h
    exact absurd h (by simp)
  | succ m ih =>
    intro slots w h
    simp only [hungerGames] at h ⊢
    by_cases hpr : (onePass tl slots w).2.2 = true
    · rw [if_pos hpr] at h ⊢
      exact ih _ _ h
    · rw [if_neg hpr] at h ⊢
      have hb : (onePass tl slots w).2.2 = false := Bool.eq_false_iff.mpr hpr
      unfold onePass at hb
      obtain ⟨heq, hprop⟩ := onePassGo_noprog tl tl slots w hb
      dsimp only
      intro e he hpos
      have h1 : (onePass tl slots w).1 = slots := by
        unfold onePass
        rw [heq]
      have h2 : (onePass tl slots w).2.1 = w := by
        unfold onePass
        rw [heq]
      rw [h1]
      rw [h2] at hpos
      exact hprop e he hpos

theorem candidates_ne_nil {tl : TaskL} {t : Task} {slots : SlotL}
    {s : Int} {oid : String} {ot : Task}
    (hmem : (s, some oid) ∈ slots) (hlo : t.wpStart ≤ s) (hhi : s < t.wpEnd)
    (hlk : lookupTask tl oid = some ot) (hpri : ot.priority < t.priority) :
    candidates tl t slots ≠ [] := by
  intro hnil
  have hp1 : ((s, some oid) : Int × Option String) ∈
      slots.filter (fun p => decide (t.wpStart ≤ p.1 ∧ p.1 < t.wpEnd)) :=
    List.mem_filter.mpr ⟨hmem, by simp [hlo, hhi]⟩
  have hp2 : ((s, oid, ot.priority) : Int × String × Int) ∈
      (slots.filter (fun p => decide (t.wpStart ≤ p.1 ∧ p.1 < t.wpEnd))).filterMap
        (fun p => p.2.bind
          (fun vid => (lookupTask tl vid).map (fun vt => (p.1, vid, vt.priority)))) := by
    refine List.mem_filterMap.mpr ⟨(s, some oid), hp1, ?_⟩
    simp [hlk]
  have hp3 : ((s, oid, ot.priority) : Int × String × Int) ∈
      ((slots.filter (fun p => decide (t.wpStart ≤ p.1 ∧ p.1 < t.wpEnd))).filterMap
        (fun p => p.2.bind
          (fun vid => (lookupTask tl vid).map (fun vt => (p.1, vid, vt.priority))))).filter
        (fun x => decide (x.2.2 < t.priority)) :=
    List.mem_filter.mpr ⟨hp2, by simp [hpri]⟩
  have hp4 := (List.perm_insertionSort
    (fun (a b : Int × String × Int) => a.2.2 ≤ b.2.2) _).mem_iff.mpr hp3
  have hp5 : ((s, oid) : Int × String) ∈ candidates tl t slots := by
    unfold candidates sortCands
    exact List.mem_map.mpr ⟨(s, oid, ot.priority), hp4, rfl⟩
  rw [hnil] at hp5
  simp at hp5

theorem evictLoop_untouched (id : String) :
    ∀ (cands : List (Int × String)) (slots : SlotL) (w : Wc)
      (p : Int × Option String),
      (∀ c ∈ cands, c.1 ≠ p.1) → p ∈ slots →
        p ∈ (evictLoop id cands slots w).1 := by
  intro cands
  induction cands with
  | nil => intro slots w p _ hp; simpa only [evictLoop] using hp
  | cons c rest ih =>
    intro slots w p hne hp
    obtain ⟨s, vid⟩ := c
    simp only [evictLoop]
    split
    · exact hp
    · refine ih _ _ _ (fun c2 hc2 => hne c2 (List.mem_cons_of_mem _ hc2)) ?_
      have hs : s ≠ p.1 := hne (s, vid) (List.mem_cons_self _ _)
      unfold setSlot
      refine List.mem_map.mpr ⟨p, hp, ?_⟩
      rw [if_neg (Ne.symm hs)]

theorem scheduleRun_final (sch : Schedule)
    (hnd : (sch.tasks.map Prod.fst).Nodup) :
    ∀ e ∈ sch.tasks, 0 < (scheduleRun sch).2.1 e.1 →
      candidates sch.tasks e.2 (scheduleRun sch).1 = [] := by
  have hflag : (scheduleRun sch).2.2 = true := scheduleRun_flag sch hnd
  unfold scheduleRun at hflag ⊢
  exact hungerGames_final sch.tasks _ _ _ hflag

/-- C3: after schedule() returns, (a) for every task id in the returned
unsatisfied set, every occupied slot inside that task's working period is held
by an occupant of equal or higher priority; (b) the eviction candidates of the
preemption pass are always occupants of strictly lower priority than the
claimant, so equal-priority tasks never preempt each other; (c) the candidate
loop reassigns candidate slots only, leaving every other slot untouched. -/
theorem c3_priority_precedence (sch : Schedule)
    (hnd : (sch.tasks.map Prod.fst).Nodup) :
    (∀ (id : String) (t : Task), id ∈ (schedule sch).2 →
        lookupTask sch.tasks id = some t →
        ∀ p ∈ (schedule sch).1.slots, ∀ oid : String, p.2 = some oid →
          t.wpStart ≤ p.1 → p.1 < t.wpEnd →
            ∃ ot, lookupTask sch.tasks oid = some ot ∧
              t.priority ≤ ot.priority) ∧
      (∀ (t2 : Task) (slots : SlotL) (s : Int) (vid : String),
        (s, vid) ∈ candidates sch.tasks t2 slots →
          ∃ vt, lookupTask sch.tasks vid = some vt ∧
            vt.priority < t2.priority) ∧
      (∀ (id2 : String) (cands : List (Int × String)) (slots : SlotL) (w : Wc)
          (p : Int × Option String),
        (∀ c ∈ cands, c.1 ≠ p.1) → p ∈ slots →
          p ∈ (evictLoop id2 cands slots w).1) := by
  refine ⟨?_, ?_, ?_⟩
  · intro id t hid hlk p hp oid hoid hlo hhi
    have hid2 : ∃ e ∈ sch.tasks, e.1 = id ∧ (scheduleRun sch).2.1 e.1 ≠ 0 := by
      have hidm : id ∈ (sch.tasks.filter
          (fun e => decide ((scheduleRun sch).2.1 e.1 ≠ 0))).map Prod.fst := hid
      rcases List.mem_map.mp hidm with ⟨e, he, heq⟩
      rcases List.mem_filter.mp he with ⟨hetl, hdec⟩
      exact ⟨e, hetl, heq, of_decide_eq_true hdec⟩
    obtain ⟨e, hetl, heq, hw⟩ := hid2
    have hlk2 : lookupTask sch.tasks e.1 = some e.2 :=
      lookupTask_eq_of_mem hnd (by rw [Prod.mk.eta]; exact hetl)
    rw [heq, hlk] at hlk2
    have hte : t = e.2 := by
      injection hlk2
    subst hte
    have hnn : NonnegWc sch.tasks (scheduleRun sch).2.1 := scheduleRun_nonneg sch hnd
    have hpos : 0 < (scheduleRun sch).2.1 e.1 := by
      have := hnn e hetl
      omega
    have hcand : candidates sch.tasks e.2 (scheduleRun sch).1 = [] :=
      scheduleRun_final sch hnd e hetl hpos
    have hocc : OccPresent sch.tasks (schedule sch).1.slots := schedule_occPresent sch
    have hck : containsKey sch.tasks oid = true := hocc p hp oid hoid
    obtain ⟨ot, hot⟩ := containsKey_lookup hck
    refine ⟨ot, hot, ?_⟩
    by_contra hlt
    push_neg at hlt
    have hpslots : (p.1, some oid) ∈ (scheduleRun sch).1 := by
      have hps : (schedule sch).1.slots = (scheduleRun sch).1 := rfl
      rw [← hps, ← hoid, Prod.mk.eta]
      exact hp
    exact candidates_ne_nil hpslots hlo hhi hot hlt hcand
  · intro t2 slots s vid hc
    obtain ⟨vt, _, hlk, hpri, _, _⟩ := candidates_mem hc
    exact ⟨vt, hlk, hpri⟩
  · intro id2 cands slots w p h1 h2
    exact evictLoop_untouched id2 cands slots w p h1 h2

/-- Witness for C3: on the two-task schedule the returned set is exactly a,
and the single occupied slot in a's window is held by a itself (equal
priority). -/
theorem c3_priority_precedence_witness :
    ∃ ot, lookupTask c1Sched.tasks "a" = some ot ∧ (1 : Int) ≤ ot.priority :=
  (c3_priority_precedence c1Sched (by decide)).1 "a"
    { priority := 1, wpStart := 0, wpEnd := 10, estimatedLength := 1000000000 }
    (by decide) (by decide) (0, some "a") (by decide) "a" rfl (by decide) (by decide)

/-! ## Totality of shuffle (claim C10) -/

theorem resolveNeighbors_mem {tl : TaskL} {lt : Int} :
    ∀ {pl : List (Nat × Int × Option String)} {ns : List Nat},
      resolveNeighbors tl lt pl = some ns → ∀ j ∈ ns,
        ∃ tj vj, (j, tj, vj) ∈ pl ∧
          (vj = none ∨ ∃ (id2 : String) (tk : Task),
            vj = some id2 ∧ lookupTask tl id2 = some tk) := by
  intro pl
  induction pl with
  | nil =>
    intro ns h j hj
    simp only [resolveNeighbors] at h
    cases h
    simp at hj
  | cons x rest ih =>
    intro ns h j hj
    obtain ⟨j0, t0, v0⟩ := x
    simp only [resolveNeighbors] at h
    cases v0 with
    | none =>
      dsimp only at h
      rcases Option.map_eq_some'.mp h with ⟨ns0, hns0, hcons⟩
      subst hcons
      rcases List.mem_cons.mp hj with h1 | h2
      · subst h1
        exact ⟨t0, none, List.mem_cons_self _ _, Or.inl rfl⟩
      · obtain ⟨tj, vj, hm, hor⟩ := ih hns0 j h2
        exact ⟨tj, vj, List.mem_cons_of_mem _ hm, hor⟩
    | some id2 =>
      dsimp only at h
      cases hlk : lookupTask tl id2 with
      | none =>
        rw [hlk] at h
        exact absurd h (by simp)
      | some tk =>
        rw [hlk] at h
        dsimp only at h
        split at h
        · rcases Option.map_eq_some'.mp h with ⟨ns0, hns0, hcons⟩
          subst hcons
          rcases List.mem_cons.mp hj with h1 | h2
          · subst h1
            exact ⟨t0, some id2, List.mem_cons_self _ _, Or.inr ⟨id2, tk, rfl, hlk⟩⟩
          · obtain ⟨tj, vj, hm, hor⟩ := ih hns0 j h2
            exact ⟨tj, vj, List.mem_cons_of_mem _ hm, hor⟩
        · obtain ⟨tj, vj, hm, hor⟩ := ih h j hj
          exact ⟨tj, vj, List.mem_cons_of_mem _ hm, hor⟩

theorem shuffleStep_occ {tl : TaskL} {slots : SlotL} (i pick : Nat)
    (h : OccPresent tl slots) :
    ∃ s2, shuffleStep tl slots i pick = some s2 ∧ OccPresent tl s2 := by
  unfold shuffleStep
  cases hi : slots.get? i with
  | none => exact ⟨slots, rfl, h⟩
  | some pr =>
    obtain ⟨lt, left⟩ := pr
    dsimp only
    have hmemi : (lt, left) ∈ slots := List.get?_mem hi
    have hrg : ∃ lo hi2, occupantRange tl left = some (lo, hi2) := by
      cases hleft : left with
      | none => exact ⟨minUtcTs, maxUtcTs, rfl⟩
      | some id =>
        obtain ⟨tc, hlk⟩ := containsKey_lookup (h (lt, left) hmemi id hleft)
        exact ⟨tc.wpStart, tc.wpEnd, by simp [occupantRange, hlk]⟩
    obtain ⟨lo, hi2, hoc⟩ := hrg
    rw [hoc]
    dsimp only
    have hpulled : ∀ x ∈ pulled lo hi2 (i + 1) (slots.drop (i + 1)),
        ∀ id : String, x.2.2 = some id → ∃ tk, lookupTask tl id = some tk := by
      intro x hx id hid
      obtain ⟨k, _, hget, _, _⟩ := pulled_spec lo hi2 _ _ x hx
      have hx2 : (x.2.1, x.2.2) ∈ slots :=
        List.get?_mem (by rw [List.get?_drop] at hget; exact hget)
      exact containsKey_lookup (h (x.2.1, x.2.2) hx2 id hid)
    obtain ⟨ns, hns, _⟩ := resolveNeighbors_total lt _ hpulled
    rw [hns]
    dsimp only
    by_cases hlen : (i :: ns).length < 2
    · rw [if_pos hlen]
      exact ⟨slots, rfl, h⟩
    rw [if_neg hlen]
    by_cases hk0 : pick % (i :: ns).length = 0
    · rw [if_pos hk0]
      exact ⟨slots, rfl, h⟩
    rw [if_neg hk0]
    cases hj : (i :: ns).get? (pick % (i :: ns).length) with
    | none => exact ⟨slots, rfl, h⟩
    | some j =>
      refine ⟨shuffleSwap slots i lt left j, rfl, ?_⟩
      unfold shuffleSwap
      cases hgj : slots.get? j with
      | none => exact h
      | some q =>
        obtain ⟨jt, right⟩ := q
        have hmemj : (jt, right) ∈ slots := List.get?_mem hgj
        intro p hp id hid
        rcases List.mem_or_eq_of_mem_set hp with hp1 | hpe
        · rcases List.mem_or_eq_of_mem_set hp1 with hp2 | hpe2
          · exact h p hp2 id hid
          · subst hpe2
            exact h (jt, right) hmemj id hid
        · subst hpe
          exact h (lt, left) hmemi id hid

theorem shuffleGo_occ {tl : TaskL} (pick : Nat → Nat) :
    ∀ (idxs : List Nat) (slots : SlotL), OccPresent tl slots →
      ∃ s2, shuffleGo tl pick idxs slots = some s2 ∧ OccPresent tl s2 := by
  intro idxs
  induction idxs with
  | nil => intro slots h; exact ⟨slots, rfl, h⟩
  | cons i rest ih =>
    intro slots h
    obtain ⟨s2, hs2, h2⟩ := shuffleStep_occ i (pick i) h
    simp only [shuffleGo, hs2]
    exact ih s2 h2

theorem shuffleStep_stale_self {tl : TaskL} {slots : SlotL} {j : Nat} {t0 : Int}
    {g : String} (hget : slots.get? j = some (t0, some g))
    (hlk : lookupTask tl g = none) (pick : Nat) :
    shuffleStep tl slots j pick = none := by
  unfold shuffleStep
  rw [hget]
  dsimp only
  have hoc : occupantRange tl (some g) = none := by
    simp [occupantRange, hlk]
  rw [hoc]

theorem shuffleStep_stale_preserved {tl : TaskL} {slots : SlotL} {i j : Nat}
    {t0 : Int} {g : String} (hne : i ≠ j)
    (hget : slots.get? j = some (t0, some g)) (hlk : lookupTask tl g = none)
    {pick : Nat} {s2 : SlotL} (hstep : shuffleStep tl slots i pick = some s2) :
    s2.get? j = some (t0, some g) := by
  unfold shuffleStep at hstep
  cases hi : slots.get? i with
  | none =>
    rw [hi] at hstep
    cases hstep
    exact hget
  | some pr =>
    obtain ⟨lt, left⟩ := pr
    rw [hi] at hstep
    dsimp only at hstep
    cases hoc : occupantRange tl left with
    | none =>
      rw [hoc] at hstep
      exact absurd hstep (by simp)
    | some pr2 =>
      obtain ⟨lo, hi2⟩ := pr2
      rw [hoc] at hstep
      dsimp only at hstep
      cases hns : resolveNeighbors tl lt (pulled lo hi2 (i + 1) (slots.drop (i + 1))) with
      | none =>
        rw [hns] at hstep
        exact absurd hstep (by simp)
      | some ns =>
        rw [hns] at hstep
        dsimp only at hstep
        by_cases hlen : (i :: ns).length < 2
        · rw [if_pos hlen] at hstep
          cases hstep
          exact hget
        · rw [if_neg hlen] at hstep
          by_cases hk0 : pick % (i :: ns).length = 0
          · rw [if_pos hk0] at hstep
            cases hstep
            exact hget
          · rw [if_neg hk0] at hstep
            cases hjk : (i :: ns).get? (pick % (i :: ns).length) with
            | none =>
              rw [hjk] at hstep
              cases hstep
              exact hget
            | some j2 =>
              rw [hjk] at hstep
              dsimp only at hstep
              unfold shuffleSwap at hstep
              cases hgj2 : slots.get? j2 with
              | none =>
                rw [hgj2] at hstep
                cases hstep
                exact hget
              | some q =>
                obtain ⟨jt, right⟩ := q
                rw [hgj2] at hstep
                dsimp only at hstep
                cases hstep
                have hj2ns : j2 ∈ ns := by
                  cases hxv : pick % (i :: ns).length with
                  | zero => exact absurd hxv hk0
                  | succ m =>
                    rw [hxv] at hjk
                    exact List.get?_mem (by simpa using hjk)
                have hj2ne : j2 ≠ j := by
                  intro heql
                  obtain ⟨tj, vj, hpl, hor⟩ := resolveNeighbors_mem hns j2 hj2ns
                  obtain ⟨k, hk1, hk2, _, _⟩ := pulled_spec lo hi2 _ _ (j2, tj, vj) hpl
                  dsimp only at hk1 hk2
                  have hgetj2 : slots.get? j2 = some (tj, vj) := by
                    rw [List.get?_drop] at hk2
                    rw [show j2 = i + 1 + k from hk1]
                    exact hk2
                  rw [heql, hget] at hgetj2
                  injection hgetj2 with hpair
                  injection hpair with hfst hsnd
                  rcases hor with h1 | ⟨id2, tk, hv2, hlk2⟩
                  · rw [h1] at hsnd
                    cases hsnd
                  · rw [hv2] at hsnd
                    injection hsnd with hg2
                    rw [← hg2] at hlk2
                    rw [hlk] at hlk2
                    cases hlk2
                rw [get?_set_ne_helper hj2ne, get?_set_ne_helper hne]
                exact hget

theorem shuffleGo_stale {tl : TaskL} (pick : Nat → Nat) {t0 : Int} {g : String}
    (hlk : lookupTask tl g = none) :
    ∀ (idxs : List Nat) (slots : SlotL) (j : Nat), j ∈ idxs →
      slots.get? j = some (t0, some g) → shuffleGo tl pick idxs slots = none := by
  intro idxs
  induction idxs with
  | nil =>
    intro slots j hj
    simp at hj
  | cons i rest ih =>
    intro slots j hj hget
    simp only [shuffleGo]
    by_cases hij : i = j
    · subst hij
      rw [shuffleStep_stale_self hget hlk]
    · cases hstep : shuffleStep tl slots i (pick i) with
      | none => rfl
      | some s2 =>
        have hjr : j ∈ rest := by
          rcases List.mem_cons.mp hj with h1 | h2
          · exact absurd h1.symm hij
          · exact h2
        exact ih s2 j hjr (shuffleStep_stale_preserved hij hget hlk hstep)

/-- C10: shuffle() is panic-free exactly when every occupied slot references an
id present in the task table: (a) under that precondition every shuffle call
returns a result, whatever the random picks; (b) whenever some occupied slot
holds a stale id, shuffle panics (the unchecked self.tasks indexing), for every
possible random pick - instead of treating the slot as empty; and (c) the
post-state of schedule(), which tolerates stale references by clearing them,
always satisfies the precondition, so shuffle after schedule cannot panic. -/
theorem c10_shuffle_totality :
    (∀ (tl : TaskL) (slots : SlotL) (pick : Nat → Nat), OccPresent tl slots →
        ∃ s2, shuffleSlots tl pick slots = some s2) ∧
      (∀ (tl : TaskL) (slots : SlotL) (pick : Nat → Nat),
        (∃ p ∈ slots, ∃ g : String, p.2 = some g ∧ containsKey tl g = false) →
          shuffleSlots tl pick slots = none) ∧
      (∀ (sch : Schedule) (pick : Nat → Nat),
        ∃ s2, shuffleSlots sch.tasks pick (schedule sch).1.slots = some s2) := by
  have htotal : ∀ (tl : TaskL) (slots : SlotL) (pick : Nat → Nat),
      OccPresent tl slots → ∃ s2, shuffleSlots tl pick slots = some s2 := by
    intro tl slots pick h
    obtain ⟨s2, hs2, _⟩ := shuffleGo_occ pick (List.range slots.length) slots h
    exact ⟨s2, hs2⟩
  refine ⟨htotal, ?_, ?_⟩
  · intro tl slots pick hstale
    obtain ⟨p, hp, g, hpg, hck⟩ := hstale
    have hlk : lookupTask tl g = none := by
      unfold containsKey at hck
      cases hl : lookupTask tl g with
      | none => rfl
      | some t =>
        rw [hl] at hck
        simp at hck
    obtain ⟨n, hn⟩ := List.mem_iff_get?.mp hp
    have hget : slots.get? n = some (p.1, some g) := by
      rw [show ((p.1, some g) : Int × Option String) = p from by
        rw [← hpg, Prod.mk.eta]]
      exact hn
    have hlen := List.get?_eq_some.mp hget
    exact shuffleGo_stale pick hlk (List.range slots.length) slots n
      (List.mem_range.mpr hlen.1) hget
  · intro sch pick
    exact htotal sch.tasks (schedule sch).1.slots pick (schedule_occPresent sch)

/-- Witness for C10: the two-task table; a single empty slot shuffles fine,
while a slot holding the absent id ghost makes shuffle panic. -/
theorem c10_shuffle_totality_witness :
    (∃ s2, shuffleSlots c1Tasks (fun _ => 0) [(0, none)] = some s2) ∧
      shuffleSlots c1Tasks (fun _ => 0) [(5, some "ghost")] = none :=
  ⟨c10_shuffle_totality.1 c1Tasks [(0, none)] (fun _ => 0)
      (by
        intro p hp id hid
        rcases List.mem_cons.mp hp with h | h
        · rw [h] at hid
          cases hid
        · simp at h),
    c10_shuffle_totality.2.1 c1Tasks [(5, some "ghost")] (fun _ => 0)
      ⟨(5, some "ghost"), List.mem_cons_self _ _, "ghost", rfl, by decide⟩⟩

end Sched
